import Mathlib

/-!
Verification of the folder-synchronisation tool (`src/folder_sync/_folder_sync.py`,
`src/folder_sync/manage_jobs.py`, `src/main.py`) against its natural-language
specification.

Modelling conventions (shallow embedding):

* A filesystem tree is a `Node`: a regular file carries an abstract signature
  (`Nat`) standing for the data `filecmp.cmp(shallow=True)` compares (size and
  mtime; `shutil.copy2` preserves both, so a copy has the same signature); a
  directory carries its children as an association list `name ↦ Node`.  Real
  directories never repeat a name; where a proof needs this we assume
  `Node.wfB` (recursively duplicate-free keys).  Listing order abstracts the
  sorted order `filecmp.dircmp` uses; every property proved below is
  independent of sibling order.
* Environmental failures (permission denied, races, platform-specific errors)
  are modelled by an oracle `Env`: `copyFail p` (resp. `delFail p`) says that a
  copy to (resp. deletion of) absolute path `p` raises one of the exceptions
  caught at `_folder_sync.py:75/113`.  A failed operation leaves the
  destination unchanged.  In addition, the always-failing cases are modelled
  exactly: copying a missing source entry, copying a file onto an existing
  directory (`IsADirectoryError`), copying a directory onto an existing file
  (`FileExistsError` from `os.makedirs`), and deleting a missing entry.
* Every observable action of a run is collected in a trace of events `Ev`:
  console prints (`Ev.con`), log-file appends (`Ev.log`, the timestamp prefix
  of `_write_to_log` is abstracted away, message text is the `Msg` value), and
  filesystem mutations (`Ev.fsCopyTree`, `Ev.fsCopyFile`, `Ev.fsDelTree`,
  `Ev.fsDelFile`), in chronological order.
* Paths are lists of components (`FPath`); `os.path.join` is `++ [name]`.
  `_folder_sync` resolves its two roots with `os.path.abspath` first; the
  model takes already-absolute roots.
-/

namespace FolderSync

abbrev FPath := List String

/-- A filesystem tree: a regular file with its shallow-comparison signature,
or a directory with named children. -/
inductive Node where
  | file (sig : Nat)
  | dir (children : List (String × Node))
deriving Repr

mutual

/-- Structural equality test for `Node` (decidable equality is derived from it;
the automatic derivation does not handle the nested inductive). -/
def Node.beq : Node → Node → Bool
  | Node.file a, Node.file b => a == b
  | Node.dir a, Node.dir b => childrenBeq a b
  | _, _ => false

def childrenBeq : List (String × Node) → List (String × Node) → Bool
  | [], [] => true
  | (n, c) :: t, (m, d) :: s => n == m && Node.beq c d && childrenBeq t s
  | _, _ => false

end

mutual

theorem Node.beq_iff : ∀ a b : Node, Node.beq a b = true ↔ a = b
  | Node.file a, Node.file b => by
    simp [Node.beq]
  | Node.file _, Node.dir _ => by
    simp [Node.beq]
  | Node.dir _, Node.file _ => by
    simp [Node.beq]
  | Node.dir a, Node.dir b => by
    simp [Node.beq, childrenBeq_iff a b]

theorem childrenBeq_iff : ∀ a b : List (String × Node), childrenBeq a b = true ↔ a = b
  | [], [] => by simp [childrenBeq]
  | [], _ :: _ => by simp [childrenBeq]
  | _ :: _, [] => by simp [childrenBeq]
  | (n, c) :: t, (m, d) :: s => by
    simp [childrenBeq, Node.beq_iff c d, childrenBeq_iff t s, and_assoc]

end

instance : DecidableEq Node := fun a b => decidable_of_iff _ (Node.beq_iff a b)

/-- Children of a directory node (a file has none). -/
def childrenOf : Node → List (String × Node)
  | Node.file _ => []
  | Node.dir ch => ch

/-- Lookup of a directory entry by name (first occurrence). -/
def lookupC : List (String × Node) → String → Option Node
  | [], _ => none
  | (k, v) :: t, n => if k = n then some v else lookupC t n

/-- Create or overwrite the entry `n ↦ v` (in place for an existing name,
appended for a new one). -/
def setC : List (String × Node) → String → Node → List (String × Node)
  | [], n, v => [(n, v)]
  | (k, w) :: t, n, v => if k = n then (n, v) :: t else (k, w) :: setC t n v

/-- Remove the entry named `n` (first occurrence). -/
def eraseC : List (String × Node) → String → List (String × Node)
  | [], _ => []
  | (k, w) :: t, n => if k = n then t else (k, w) :: eraseC t n

/-- The entry names of a directory listing. -/
def keysC (ch : List (String × Node)) : List String := ch.map Prod.fst

/-- Boolean no-duplicates test on a list of names. -/
def nodupB : List String → Bool
  | [] => true
  | x :: t => !t.contains x && nodupB t

mutual

/-- Well-formed tree: no directory level repeats an entry name (always true of
a real filesystem tree). -/
def Node.wfB : Node → Bool
  | Node.file _ => true
  | Node.dir ch => nodupB (keysC ch) && childrenWf ch

def childrenWf : List (String × Node) → Bool
  | [] => true
  | (_, c) :: t => c.wfB && childrenWf t

end

/-- Well-formedness of an optional tree (an absent path is well-formed). -/
def wfO : Option Node → Bool
  | none => true
  | some n => n.wfB

/-- The message texts the program emits; one constructor per f-string of
`_folder_sync.py` (the interpolated paths/names are the arguments, the
exception text of a caught error is abstracted away). -/
inductive Msg where
  | copyFolder (src dst : FPath)
  | copyFile (src dst : FPath)
  | copyExc (name : String)
  | delFolder (p : FPath)
  | delFile (p : FPath)
  | delExc (name : String)
  | replicaMissing (rp sp : FPath)
  | srcMissingExc (sp : FPath)
deriving DecidableEq, Repr

/-- Observable events of a run, in chronological order. -/
inductive Ev where
  | con (m : Msg)
  | log (m : Msg)
  | fsCopyTree (src dst : FPath)
  | fsCopyFile (src dst : FPath)
  | fsDelTree (p : FPath)
  | fsDelFile (p : FPath)
deriving DecidableEq, Repr

/-- `_custom_print` (`_folder_sync.py:27`): print to the console, then append
the same message to the log file. -/
def customPrint (m : Msg) : List Ev := [Ev.con m, Ev.log m]

/-- Failure oracle for filesystem operations, keyed by the absolute target
path; models the environment-dependent exceptions caught per entry. -/
structure Env where
  copyFail : FPath → Bool
  delFail : FPath → Bool

mutual

/-- `shutil.copytree(src, dst, dirs_exist_ok=True)` on trees: files are copied
with `copy2` (same signature), directories are merged into any existing
destination directory.  Interior type clashes would abort the real
`copytree` with an error; the orchestrator only calls it with an absent
destination, where no clash can occur, and the model resolves them
source-wins. -/
def copytreeNode (src : Node) (dst : Option Node) : Node :=
  match src with
  | Node.file s => Node.file s
  | Node.dir sc =>
    Node.dir (copytreeList sc (match dst with | some (Node.dir dc) => dc | _ => []))

def copytreeList : List (String × Node) → List (String × Node) → List (String × Node)
  | [], acc => acc
  | (n, c) :: rest, acc => copytreeList rest (setC acc n (copytreeNode c (lookupC acc n)))

end

/-- Result of one reconciler/purger call: the replica directory's children
afterwards, the events emitted, and the boolean the function returns. -/
structure StepRes where
  repl : List (String × Node)
  trace : List Ev
  ok : Bool
deriving DecidableEq, Repr

/-- One iteration of the loop of `_copy_new_modified_files`
(`_folder_sync.py:57-80`): resolve the two joined paths, log the action,
attempt the copy; any exception is caught, logged with the entry name, and
turns the overall result false.  Returns (replica children afterwards,
events, per-entry success). -/
def copyOne (env : Env) (sp rp : FPath) (sc rc : List (String × Node)) (n : String) :
    List (String × Node) × List Ev × Bool :=
  let spath := sp ++ [n]
  let rpath := rp ++ [n]
  match lookupC sc n with
  | some (Node.dir dch) =>
    -- os.path.isdir(source_path): copytree with dirs_exist_ok=True
    let hdr := customPrint (Msg.copyFolder spath rpath)
    if env.copyFail rpath || (match lookupC rc n with | some (Node.file _) => true | _ => false) then
      (rc, hdr ++ customPrint (Msg.copyExc n), false)
    else
      (setC rc n (copytreeNode (Node.dir dch) (lookupC rc n)),
        hdr ++ [Ev.fsCopyTree spath rpath], true)
  | some (Node.file s) =>
    -- not a directory: shutil.copy2
    let hdr := customPrint (Msg.copyFile spath rpath)
    if env.copyFail rpath || (match lookupC rc n with | some (Node.dir _) => true | _ => false) then
      (rc, hdr ++ customPrint (Msg.copyExc n), false)
    else
      (setC rc n (Node.file s), hdr ++ [Ev.fsCopyFile spath rpath], true)
  | none =>
    -- missing source entry: isdir is false, so the copy2 branch runs and
    -- raises FileNotFoundError, caught per entry
    let hdr := customPrint (Msg.copyFile spath rpath)
    (rc, hdr ++ customPrint (Msg.copyExc n), false)

/-- `_copy_new_modified_files` (`_folder_sync.py:38-82`): attempt every name in
`paths_list` in order (a failure never stops the loop); the returned boolean
starts true and becomes false on any failure.  `sc`/`rc` are the current
children of the source and replica folders. -/
def copy_new_modified_files (env : Env) (sp rp : FPath) (sc : List (String × Node)) :
    List (String × Node) → List String → StepRes
  | rc, [] => ⟨rc, [], true⟩
  | rc, n :: rest =>
    let one := copyOne env sp rp sc rc n
    let res := copy_new_modified_files env sp rp sc one.1 rest
    ⟨res.repl, one.2.1 ++ res.trace, one.2.2 && res.ok⟩

/-- One iteration of the loop of `_delete_locations` (`_folder_sync.py:104-118`):
directories are removed with `shutil.rmtree`, anything else with `os.remove`
(a missing entry therefore raises `FileNotFoundError`); failures are caught,
logged with the entry name, and turn the overall result false. -/
def deleteOne (env : Env) (root : FPath) (rc : List (String × Node)) (n : String) :
    List (String × Node) × List Ev × Bool :=
  let p := root ++ [n]
  match lookupC rc n with
  | some (Node.dir _) =>
    let hdr := customPrint (Msg.delFolder p)
    if env.delFail p then (rc, hdr ++ customPrint (Msg.delExc n), false)
    else (eraseC rc n, hdr ++ [Ev.fsDelTree p], true)
  | some (Node.file _) =>
    let hdr := customPrint (Msg.delFile p)
    if env.delFail p then (rc, hdr ++ customPrint (Msg.delExc n), false)
    else (eraseC rc n, hdr ++ [Ev.fsDelFile p], true)
  | none =>
    let hdr := customPrint (Msg.delFile p)
    (rc, hdr ++ customPrint (Msg.delExc n), false)

/-- `_delete_locations` (`_folder_sync.py:85-119`): attempt every name in
order; one failure does not stop the loop. -/
def delete_locations (env : Env) (root : FPath) :
    List (String × Node) → List String → StepRes
  | rc, [] => ⟨rc, [], true⟩
  | rc, n :: rest =>
    let one := deleteOne env root rc n
    let res := delete_locations env root one.1 rest
    ⟨res.repl, one.2.1 ++ res.trace, one.2.2 && res.ok⟩

/-- `filecmp.DEFAULT_IGNORES`: names `dircmp` silently skips on both sides. -/
def IGNORES : List String :=
  ["RCS", "CVS", "tags", ".git", ".hg", ".bzr", "_darcs", "__pycache__"]

/-- The classification `filecmp.dircmp` computes for one directory level. -/
structure CmpRes where
  left_only : List String
  right_only : List String
  common : List String
  common_dirs : List String
  common_files : List String
  common_funny : List String
  diff_files : List String
deriving DecidableEq, Repr

def isDirN : Option Node → Bool
  | some (Node.dir _) => true
  | _ => false

def isFileN : Option Node → Bool
  | some (Node.file _) => true
  | _ => false

/-- `filecmp.dircmp(source, replica)` on one directory level: listings minus
the default ignore list; names on one side only; common names split into
both-directories, both-files and type-mismatched (`common_funny`);
`diff_files` are the common files whose shallow comparison differs
(signature inequality in the model).  `dircmp` sorts its listings; the model
keeps listing order, which no proved property observes. -/
def dircmp (sc rc : List (String × Node)) : CmpRes :=
  let ln := (keysC sc).filter (fun n => !IGNORES.contains n)
  let rn := (keysC rc).filter (fun n => !IGNORES.contains n)
  let common := ln.filter (fun n => rn.contains n)
  let left_only := ln.filter (fun n => !rn.contains n)
  let right_only := rn.filter (fun n => !ln.contains n)
  let common_dirs := common.filter (fun n => isDirN (lookupC sc n) && isDirN (lookupC rc n))
  let common_files := common.filter (fun n => isFileN (lookupC sc n) && isFileN (lookupC rc n))
  let common_funny := common.filter (fun n =>
    !(isDirN (lookupC sc n) && isDirN (lookupC rc n)) &&
    !(isFileN (lookupC sc n) && isFileN (lookupC rc n)))
  let diff_files := common_files.filter (fun n => decide (lookupC sc n ≠ lookupC rc n))
  ⟨left_only, right_only, common, common_dirs, common_files, common_funny, diff_files⟩

/-- How one `_folder_sync` invocation ends: normal return, the logged
`FileNotFoundError` for a missing source, or an uncaught exception
(`shutil.copytree` of the replica-absent branch, or `dircmp` applied to a
non-directory). -/
inductive Outcome where
  | done
  | srcNotFound
  | raised
deriving DecidableEq, Repr

/-- Result of one `_folder_sync` invocation: the replica tree afterwards, the
events emitted, and how the invocation ended. -/
structure SyncRes where
  replica : Option Node
  trace : List Ev
  outcome : Outcome
deriving DecidableEq, Repr

/-- The replica-absent branch of `_folder_sync` (`_folder_sync.py:146-153`):
log the message, then `shutil.copytree` (no `dirs_exist_ok`) the whole
source subtree; the call is outside any `try`, so a failure propagates
(`copytree` of a file raises `NotADirectoryError`). -/
def replicaAbsent (env : Env) (sp rp : FPath) (s : Node) : SyncRes :=
  let hdr := customPrint (Msg.replicaMissing rp sp)
  match s with
  | Node.file _ => ⟨none, hdr, Outcome.raised⟩
  | Node.dir _ =>
    if env.copyFail rp then ⟨none, hdr, Outcome.raised⟩
    else ⟨some s, hdr ++ [Ev.fsCopyTree sp rp], Outcome.done⟩

mutual

/-- `_folder_sync` (`_folder_sync.py:122-185`) on an existing source/replica
pair: `dircmp` the level, reconcile `left_only + diff_files` (stop on any
failure), purge `right_only` (stop on any failure), then recurse into every
common subdirectory.  `dircmp` of a non-directory raises
`NotADirectoryError` (`Outcome.raised`). -/
def folder_syncCore (env : Env) (sp rp : FPath) (s r : Node) : SyncRes :=
  match s, r with
  | Node.dir sc, Node.dir rc =>
    let cmp := dircmp sc rc
    let rec1 := copy_new_modified_files env sp rp sc rc (cmp.left_only ++ cmp.diff_files)
    if rec1.ok then
      let del := delete_locations env rp rec1.repl cmp.right_only
      if del.ok then
        let rest := syncChildren env sp rp cmp.common_dirs sc del.repl
        ⟨some (Node.dir rest.1), rec1.trace ++ del.trace ++ rest.2.1, rest.2.2⟩
      else ⟨some (Node.dir del.repl), rec1.trace ++ del.trace, Outcome.done⟩
    else ⟨some (Node.dir rec1.repl), rec1.trace, Outcome.done⟩
  | _, r => ⟨some r, [], Outcome.raised⟩

/-- The recursion loop `for sub_folder_name in comparison_result.common_dirs`
(`_folder_sync.py:180-185`): one independent recursive `_folder_sync` call
per common subdirectory; an uncaught exception inside a call propagates and
aborts the loop.  The model walks the source children and processes those
named in `dirNames`; for duplicate-free listings this is exactly the loop
over `common_dirs` (the source child always exists, so the recursive call's
source check passes; the replica-absent branch of the callee is kept
verbatim for the — unreachable — case that the replica child is missing). -/
def syncChildren (env : Env) (sp rp : FPath) (dirNames : List String) :
    List (String × Node) → List (String × Node) →
      List (String × Node) × List Ev × Outcome
  | [], rc => (rc, [], Outcome.done)
  | (n, child) :: rest, rc =>
    if dirNames.contains n then
      let res :=
        match lookupC rc n with
        | none => replicaAbsent env (sp ++ [n]) (rp ++ [n]) child
        | some rchild => folder_syncCore env (sp ++ [n]) (rp ++ [n]) child rchild
      let rc' := match res.replica with
        | some x => setC rc n x
        | none => eraseC rc n
      match res.outcome with
      | Outcome.done =>
        let rest' := syncChildren env sp rp dirNames rest rc'
        (rest'.1, res.trace ++ rest'.2.1, rest'.2.2)
      | oc => (rc', res.trace, oc)
    else syncChildren env sp rp dirNames rest rc

end

/-- `_folder_sync` (`_folder_sync.py:122-185`), top level: a missing source is
appended to the log (log only — `_write_to_log`, not `_custom_print`) and
`FileNotFoundError` is raised; a missing replica is created by one whole
copy of the source subtree; otherwise the level is synchronised by
`folder_syncCore`. -/
def folder_sync (env : Env) (sp rp : FPath) (src repl : Option Node) : SyncRes :=
  match src with
  | none => ⟨repl, [Ev.log (Msg.srcMissingExc sp)], Outcome.srcNotFound⟩
  | some s =>
    match repl with
    | none => replicaAbsent env sp rp s
    | some r => folder_syncCore env sp rp s r

/-- One iteration body of the recursion loop, as a standalone function: the
recursive `_folder_sync` call on common subdirectory `n` (the source child
is in hand and exists; the replica child is looked up).  `syncChildren`'s
inner match is exactly this function. -/
def childRun (env : Env) (sp rp : FPath) (n : String) (child : Node)
    (ro : Option Node) : SyncRes :=
  match ro with
  | none => replicaAbsent env (sp ++ [n]) (rp ++ [n]) child
  | some rchild => folder_syncCore env (sp ++ [n]) (rp ++ [n]) child rchild

/-! ### Observations on trees and traces -/

mutual

/-- All paths of a tree, with `some sig` at a file and `none` at a directory;
two trees describe the same filesystem content exactly when they have the
same path sets. -/
def Node.paths : Node → List (FPath × Option Nat)
  | Node.file c => [([], some c)]
  | Node.dir ch => ([], (none : Option Nat)) :: childPaths ch

def childPaths : List (String × Node) → List (FPath × Option Nat)
  | [] => []
  | (n, c) :: rest => (Node.paths c).map (fun pv => (n :: pv.1, pv.2)) ++ childPaths rest

end

mutual

/-- `synced s r`: one more `_folder_sync` run on the pair would do no work at
any level — the level's `left_only`, `right_only` and `diff_files` are all
empty and every common subdirectory is recursively synced.  (Ignored names
and type-mismatched entries are skipped by `dircmp` and are allowed to
differ.) -/
def synced : Node → Node → Bool
  | Node.dir sc, Node.dir rc =>
    let cmp := dircmp sc rc
    cmp.left_only.isEmpty && cmp.right_only.isEmpty && cmp.diff_files.isEmpty &&
      syncedKids cmp.common_dirs rc sc
  | _, _ => false

def syncedKids (dirNames : List String) (rc : List (String × Node)) :
    List (String × Node) → Bool
  | [] => true
  | (n, child) :: rest =>
    (if dirNames.contains n then
      match lookupC rc n with
      | some b => synced child b
      | none => false
    else true) && syncedKids dirNames rc rest

end

mutual

/-- No entry anywhere in the tree bears a name from `filecmp`'s default ignore
list. -/
def noIgnoredB : Node → Bool
  | Node.file _ => true
  | Node.dir ch => noIgnoredKids ch

def noIgnoredKids : List (String × Node) → Bool
  | [] => true
  | (n, c) :: rest => !IGNORES.contains n && noIgnoredB c && noIgnoredKids rest

end

mutual

/-- No name common to both trees, at any level reached through common
directories, is a file on one side and a directory on the other (the
type-mismatch edge case the specification excludes). -/
def noClashB : Node → Node → Bool
  | Node.dir sc, Node.dir rc => noClashKids rc sc
  | Node.file _, Node.file _ => true
  | _, _ => false

def noClashKids (rc : List (String × Node)) : List (String × Node) → Bool
  | [] => true
  | (n, child) :: rest =>
    (match lookupC rc n with
     | none => true
     | some b =>
       match child, b with
       | Node.file _, Node.file _ => true
       | Node.dir _, Node.dir _ => noClashB child b
       | _, _ => false) && noClashKids rc rest

end

/-- A per-entry failure was logged (the exception lines of
`_folder_sync.py:76-79` and `114-117`). -/
def isFailEv : Ev → Bool
  | Ev.log (Msg.copyExc _) => true
  | Ev.log (Msg.delExc _) => true
  | _ => false

/-- A run (or a component call) reported no per-entry failure. -/
def failFree (evs : List Ev) : Bool := evs.all (fun e => !isFailEv e)

/-- The messages printed to the console, in order. -/
def conMsgs (evs : List Ev) : List Msg :=
  evs.filterMap (fun e => match e with | Ev.con m => some m | _ => none)

/-- The messages appended to the log file, in order. -/
def logMsgs (evs : List Ev) : List Msg :=
  evs.filterMap (fun e => match e with | Ev.log m => some m | _ => none)

/-- The filesystem paths an event writes to or deletes. -/
def writeTargets : Ev → List FPath
  | Ev.fsCopyTree _ d => [d]
  | Ev.fsCopyFile _ d => [d]
  | Ev.fsDelTree p => [p]
  | Ev.fsDelFile p => [p]
  | _ => []

/-- `p` lies at or below the directory `root`. -/
def underDir (root p : FPath) : Prop := ∃ q, p = root ++ q

/-- A reconcile (copy) or purge (delete) log entry. -/
def copyDelLog : Ev → Bool
  | Ev.log (Msg.copyFolder _ _) => true
  | Ev.log (Msg.copyFile _ _) => true
  | Ev.log (Msg.copyExc _) => true
  | Ev.log (Msg.delFolder _) => true
  | Ev.log (Msg.delFile _) => true
  | Ev.log (Msg.delExc _) => true
  | _ => false

/-- Any event of the purger: its log/console lines or its filesystem deletes. -/
def isDelEv : Ev → Bool
  | Ev.log (Msg.delFolder _) => true
  | Ev.log (Msg.delFile _) => true
  | Ev.log (Msg.delExc _) => true
  | Ev.con (Msg.delFolder _) => true
  | Ev.con (Msg.delFile _) => true
  | Ev.con (Msg.delExc _) => true
  | Ev.fsDelTree _ => true
  | Ev.fsDelFile _ => true
  | _ => false

/-- The action message announcing a filesystem event (`none` for print/log
events). -/
def actionFor : Ev → Option Msg
  | Ev.fsCopyTree s d => some (Msg.copyFolder s d)
  | Ev.fsCopyFile s d => some (Msg.copyFile s d)
  | Ev.fsDelTree p => some (Msg.delFolder p)
  | Ev.fsDelFile p => some (Msg.delFile p)
  | _ => none

/-! ### Scheduler integration (`manage_jobs.py`, `main.py`) -/

/-- One line of the user's crontab, as `python-crontab` models it: the command
string and the minute frequency set by `job.minute.every(interval)`. -/
structure CronJob where
  command : String
  minuteEvery : Nat
deriving DecidableEq, Repr

/-- What the crontab-management functions print. -/
inductive CronMsg where
  | added
  | modified
  | removed
  | noMatch
deriving DecidableEq, Repr

/-- `add_job_to_crontab` (`manage_jobs.py:12-41`): if no job has exactly this
command, append a new one with the given frequency; otherwise set the
frequency of every matching job. -/
def add_job_to_crontab (command : String) (interval : Nat) (cron : List CronJob) :
    List CronJob × CronMsg :=
  let found := cron.filter (fun j => j.command == command)
  if found.length = 0 then
    (cron ++ [⟨command, interval⟩], CronMsg.added)
  else
    (cron.map (fun j => if j.command == command then ⟨j.command, interval⟩ else j),
      CronMsg.modified)

/-- `del_job_from_crontab` (`manage_jobs.py:44-64`): remove every job whose
command matches exactly; print a no-match message when none does. -/
def del_job_from_crontab (command : String) (cron : List CronJob) :
    List CronJob × CronMsg :=
  let found := cron.filter (fun j => j.command == command)
  if found.length > 0 then
    (cron.filter (fun j => !(j.command == command)), CronMsg.removed)
  else
    (cron, CronMsg.noMatch)

/-- Python's `str.lower()` (on the ASCII mode strings used here).  Core's
`String.toLower` is extensionally the same function but is defined by
byte-position recursion, which blocks kernel evaluation. -/
def strToLower (s : String) : String := String.mk (s.data.map Char.toLower)

def MODE_ADD : String := "add"

def MODE_DEL : String := "del"

/-- Result of the `__main__` dispatch of `main.py`. -/
structure MainRes where
  cron : List CronJob
  msg : Option CronMsg
  raisedValueError : Bool
deriving DecidableEq, Repr

/-- The mode dispatch of `main.py:47-54`.  The `raise ValueError(...)` at line
51 is not guarded by an `else` (and the add/del branches neither return nor
exit), so it executes on every path — after the crontab operation has
already been performed and written. -/
def main_mode_dispatch (mode command : String) (interval : Nat) (cron : List CronJob) :
    MainRes :=
  if strToLower mode = MODE_ADD then
    let r := add_job_to_crontab command interval cron
    ⟨r.1, some r.2, true⟩
  else if strToLower mode = MODE_DEL then
    let r := del_job_from_crontab command cron
    ⟨r.1, some r.2, true⟩
  else ⟨cron, none, true⟩

/-! ### Association-list lemmas -/

theorem lookupC_eq_none_iff (ch : List (String × Node)) (n : String) :
    lookupC ch n = none ↔ n ∉ keysC ch := by
  induction ch with
  | nil => simp [lookupC, keysC]
  | cons h t ih =>
    obtain ⟨k, v⟩ := h
    by_cases hk : k = n
    · subst hk
      simp [lookupC, keysC]
    · have hn : n ≠ k := fun e => hk e.symm
      simp [lookupC, keysC, hk, ih, hn]

theorem lookupC_isSome_iff (ch : List (String × Node)) (n : String) :
    (lookupC ch n).isSome = true ↔ n ∈ keysC ch := by
  rw [Option.isSome_iff_ne_none, ne_eq, lookupC_eq_none_iff]
  tauto

theorem lookupC_setC_self (ch : List (String × Node)) (n : String) (v : Node) :
    lookupC (setC ch n v) n = some v := by
  induction ch with
  | nil => simp [setC, lookupC]
  | cons h t ih =>
    obtain ⟨k, w⟩ := h
    by_cases hk : k = n <;> simp [setC, lookupC, hk, ih]

theorem lookupC_setC_ne (ch : List (String × Node)) (n m : String) (v : Node)
    (h : m ≠ n) : lookupC (setC ch n v) m = lookupC ch m := by
  induction ch with
  | nil => simp [setC, lookupC, Ne.symm h]
  | cons hd t ih =>
    obtain ⟨k, w⟩ := hd
    by_cases hk : k = n
    · subst hk
      simp [setC, lookupC, Ne.symm h]
    · simp only [setC, if_neg hk, lookupC]
      by_cases hm : k = m
      · simp [hm]
      · simp [hm, ih]

theorem lookupC_eraseC_ne (ch : List (String × Node)) (n m : String)
    (h : m ≠ n) : lookupC (eraseC ch n) m = lookupC ch m := by
  induction ch with
  | nil => simp [eraseC, lookupC]
  | cons hd t ih =>
    obtain ⟨k, w⟩ := hd
    by_cases hk : k = n
    · subst hk
      simp [eraseC, lookupC, Ne.symm h]
    · simp only [eraseC, if_neg hk, lookupC]
      by_cases hm : k = m
      · simp [hm]
      · simp [hm, ih]

theorem nodupB_iff (l : List String) : nodupB l = true ↔ l.Nodup := by
  induction l with
  | nil => simp [nodupB]
  | cons x t ih => simp [nodupB, ih, List.nodup_cons]

theorem lookupC_eraseC_self (ch : List (String × Node)) (n : String)
    (h : nodupB (keysC ch) = true) : lookupC (eraseC ch n) n = none := by
  induction ch with
  | nil => simp [eraseC, lookupC]
  | cons hd t ih =>
    obtain ⟨k, w⟩ := hd
    rw [nodupB_iff] at h
    simp only [keysC, List.map_cons, List.nodup_cons] at h
    by_cases hk : k = n
    · subst hk
      simp only [eraseC, if_pos rfl]
      rw [lookupC_eq_none_iff]
      exact h.1
    · simp only [eraseC, if_neg hk, lookupC, if_neg hk]
      exact ih (by rw [nodupB_iff]; exact h.2)

theorem mem_keysC_setC (ch : List (String × Node)) (n m : String) (v : Node) :
    m ∈ keysC (setC ch n v) ↔ m ∈ keysC ch ∨ m = n := by
  induction ch with
  | nil => simp [setC, keysC]
  | cons hd t ih =>
    obtain ⟨k, w⟩ := hd
    by_cases hk : k = n
    · subst hk
      simp [setC, keysC]
      tauto
    · simp [setC, keysC, hk] at *
      tauto

theorem nodup_keysC_setC (ch : List (String × Node)) (n : String) (v : Node)
    (h : nodupB (keysC ch) = true) : nodupB (keysC (setC ch n v)) = true := by
  rw [nodupB_iff] at *
  induction ch with
  | nil => simp [setC, keysC]
  | cons hd t ih =>
    obtain ⟨k, w⟩ := hd
    simp only [keysC, List.map_cons, List.nodup_cons] at h
    by_cases hk : k = n
    · subst hk
      simpa [setC, keysC, List.nodup_cons] using h
    · simp only [setC, if_neg hk, keysC, List.map_cons, List.nodup_cons]
      refine ⟨fun hm => h.1 ?_, ih h.2⟩
      rcases (mem_keysC_setC t n k v).1 hm with h' | h'
      · exact h'
      · exact absurd h' hk

theorem mem_keysC_eraseC (ch : List (String × Node)) (n m : String) :
    m ∈ keysC (eraseC ch n) → m ∈ keysC ch := by
  induction ch with
  | nil => simp [eraseC]
  | cons hd t ih =>
    obtain ⟨k, w⟩ := hd
    by_cases hk : k = n
    · subst hk
      simp [eraseC, keysC]
      tauto
    · simp only [eraseC, if_neg hk, keysC, List.map_cons, List.mem_cons]
      intro h
      rcases h with h | h
      · exact Or.inl h
      · exact Or.inr (ih h)

theorem nodup_keysC_eraseC (ch : List (String × Node)) (n : String)
    (h : nodupB (keysC ch) = true) : nodupB (keysC (eraseC ch n)) = true := by
  rw [nodupB_iff] at *
  induction ch with
  | nil => simp [eraseC, keysC]
  | cons hd t ih =>
    obtain ⟨k, w⟩ := hd
    simp only [keysC, List.map_cons, List.nodup_cons] at h
    by_cases hk : k = n
    · subst hk
      simpa [eraseC, keysC] using h.2
    · simp only [eraseC, if_neg hk, keysC, List.map_cons, List.nodup_cons]
      exact ⟨fun hm => h.1 (mem_keysC_eraseC t n k hm), ih h.2⟩

theorem setC_self (ch : List (String × Node)) (n : String) (v : Node)
    (h : lookupC ch n = some v) : setC ch n v = ch := by
  induction ch with
  | nil => simp [lookupC] at h
  | cons hd t ih =>
    obtain ⟨k, w⟩ := hd
    by_cases hk : k = n
    · subst hk
      have hv : w = v := by simpa [lookupC] using h
      subst hv
      simp [setC]
    · simp only [lookupC, if_neg hk] at h
      simp [setC, hk, ih h]

theorem lookupC_of_mem (ch : List (String × Node)) (n : String) (c : Node)
    (hnd : nodupB (keysC ch) = true) (h : (n, c) ∈ ch) : lookupC ch n = some c := by
  induction ch with
  | nil => simp at h
  | cons hd t ih =>
    obtain ⟨k, w⟩ := hd
    rw [nodupB_iff] at hnd
    simp only [keysC, List.map_cons, List.nodup_cons] at hnd
    rcases List.mem_cons.1 h with h' | h'
    · simp only [Prod.mk.injEq] at h'
      obtain ⟨rfl, rfl⟩ := h'
      simp [lookupC]
    · have hk : k ≠ n := by
        intro e
        subst e
        exact hnd.1 (by simpa [keysC] using List.mem_map_of_mem Prod.fst h')
      simp only [lookupC, if_neg hk]
      exact ih (by rw [nodupB_iff]; exact hnd.2) h'

theorem mem_of_lookupC (ch : List (String × Node)) (n : String) (c : Node)
    (h : lookupC ch n = some c) : (n, c) ∈ ch := by
  induction ch with
  | nil => simp [lookupC] at h
  | cons hd t ih =>
    obtain ⟨k, w⟩ := hd
    by_cases hk : k = n
    · subst hk
      have hv : w = c := by simpa [lookupC] using h
      subst hv
      simp
    · simp only [lookupC, if_neg hk] at h
      exact List.mem_cons_of_mem _ (ih h)

/-! ### Console/log parity -/

theorem conMsgs_append (a b : List Ev) : conMsgs (a ++ b) = conMsgs a ++ conMsgs b := by
  simp [conMsgs]

theorem logMsgs_append (a b : List Ev) : logMsgs (a ++ b) = logMsgs a ++ logMsgs b := by
  simp [logMsgs]

theorem parity_customPrint (m : Msg) :
    conMsgs (customPrint m) = [m] ∧ logMsgs (customPrint m) = [m] := by
  simp [customPrint, conMsgs, logMsgs]

theorem copyOne_parity (env : Env) (sp rp : FPath) (sc rc : List (String × Node))
    (n : String) :
    conMsgs (copyOne env sp rp sc rc n).2.1 = logMsgs (copyOne env sp rp sc rc n).2.1 := by
  unfold copyOne
  rcases lookupC sc n with _ | ⟨s | dch⟩ <;>
    simp [customPrint, conMsgs, logMsgs] <;> split <;> simp

theorem copy_parity (env : Env) (sp rp : FPath) (sc : List (String × Node)) :
    ∀ (l : List String) (rc : List (String × Node)),
      conMsgs (copy_new_modified_files env sp rp sc rc l).trace =
        logMsgs (copy_new_modified_files env sp rp sc rc l).trace := by
  intro l
  induction l with
  | nil => intro rc; simp [copy_new_modified_files, conMsgs, logMsgs]
  | cons n rest ih =>
    intro rc
    simp only [copy_new_modified_files, conMsgs_append, logMsgs_append,
      copyOne_parity, ih]

theorem deleteOne_parity (env : Env) (root : FPath) (rc : List (String × Node))
    (n : String) :
    conMsgs (deleteOne env root rc n).2.1 = logMsgs (deleteOne env root rc n).2.1 := by
  unfold deleteOne
  rcases lookupC rc n with _ | ⟨s | dch⟩ <;>
    simp [customPrint, conMsgs, logMsgs] <;> split <;> simp

theorem delete_parity (env : Env) (root : FPath) :
    ∀ (l : List String) (rc : List (String × Node)),
      conMsgs (delete_locations env root rc l).trace =
        logMsgs (delete_locations env root rc l).trace := by
  intro l
  induction l with
  | nil => intro rc; simp [delete_locations, conMsgs, logMsgs]
  | cons n rest ih =>
    intro rc
    simp only [delete_locations, conMsgs_append, logMsgs_append,
      deleteOne_parity, ih]

theorem replicaAbsent_parity (env : Env) (sp rp : FPath) (s : Node) :
    conMsgs (replicaAbsent env sp rp s).trace = logMsgs (replicaAbsent env sp rp s).trace := by
  unfold replicaAbsent
  rcases s with s | sc <;> simp [customPrint, conMsgs, logMsgs]
  split <;> simp

mutual

theorem core_parity (env : Env) (sp rp : FPath) :
    ∀ s r : Node,
      conMsgs (folder_syncCore env sp rp s r).trace =
        logMsgs (folder_syncCore env sp rp s r).trace
  | Node.dir sc, Node.dir rc => by
    simp only [folder_syncCore]
    rcases h1 : (copy_new_modified_files env sp rp sc rc
        ((dircmp sc rc).left_only ++ (dircmp sc rc).diff_files)).ok with _ | _
    · simp only [h1, Bool.false_eq_true, if_false]
      exact copy_parity env sp rp sc _ rc
    · simp only [h1, if_true]
      rcases h2 : (delete_locations env rp
          (copy_new_modified_files env sp rp sc rc
            ((dircmp sc rc).left_only ++ (dircmp sc rc).diff_files)).repl
          (dircmp sc rc).right_only).ok with _ | _
      · simp only [h2, Bool.false_eq_true, if_false, conMsgs_append, logMsgs_append]
        rw [copy_parity, delete_parity]
      · simp only [h2, if_true, conMsgs_append, logMsgs_append]
        rw [copy_parity, delete_parity,
          kids_parity env sp rp (dircmp sc rc).common_dirs sc]
  | Node.dir _, Node.file _ => by simp [folder_syncCore, conMsgs, logMsgs]
  | Node.file _, Node.dir _ => by simp [folder_syncCore, conMsgs, logMsgs]
  | Node.file _, Node.file _ => by simp [folder_syncCore, conMsgs, logMsgs]

theorem kids_parity (env : Env) (sp rp : FPath) (dirNames : List String) :
    ∀ (kids rc : List (String × Node)),
      conMsgs (syncChildren env sp rp dirNames kids rc).2.1 =
        logMsgs (syncChildren env sp rp dirNames kids rc).2.1
  | [], rc => by simp [syncChildren, conMsgs, logMsgs]
  | (n, child) :: rest, rc => by
    simp only [syncChildren]
    by_cases hn : dirNames.contains n
    · simp only [hn, if_true]
      rcases hrc : lookupC rc n with _ | rchild
      · simp only [hrc]
        rcases ho : (replicaAbsent env (sp ++ [n]) (rp ++ [n]) child).outcome with _ | _ | _
        · simp only [ho, conMsgs_append, logMsgs_append]
          rw [replicaAbsent_parity, kids_parity env sp rp dirNames rest]
        · simp only [ho]
          exact replicaAbsent_parity env (sp ++ [n]) (rp ++ [n]) child
        · simp only [ho]
          exact replicaAbsent_parity env (sp ++ [n]) (rp ++ [n]) child
      · simp only [hrc]
        rcases ho : (folder_syncCore env (sp ++ [n]) (rp ++ [n]) child rchild).outcome with _ | _ | _
        · simp only [ho, conMsgs_append, logMsgs_append]
          rw [core_parity env (sp ++ [n]) (rp ++ [n]) child rchild,
            kids_parity env sp rp dirNames rest]
        · simp only [ho]
          exact core_parity env (sp ++ [n]) (rp ++ [n]) child rchild
        · simp only [ho]
          exact core_parity env (sp ++ [n]) (rp ++ [n]) child rchild
    · simp only [hn, Bool.false_eq_true, if_false]
      exact kids_parity env sp rp dirNames rest rc

end

/-- C8 (amended): every message emitted through `_custom_print` — that is,
every message of a run whose source folder exists — is printed to the
console and appended to the log file identically; the fatal missing-source
message is the one exception (see the counterexample). -/
theorem console_log_parity_when_source_exists (env : Env) (sp rp : FPath)
    (s : Node) (repl : Option Node) :
    conMsgs (folder_sync env sp rp (some s) repl).trace =
      logMsgs (folder_sync env sp rp (some s) repl).trace := by
  unfold folder_sync
  rcases repl with _ | r
  · exact replicaAbsent_parity env sp rp s
  · exact core_parity env sp rp s r

/-- C8 counterexample: the fatal missing-source message is emitted with
`_write_to_log` alone (`_folder_sync.py:143`), not `_custom_print`, so the
log file receives `EXCEPTION: Could not find the source folder ...` while
the console print channel receives nothing (the text surfaces only through
the raised `FileNotFoundError`); console and log do not match. -/
theorem console_log_parity_fails_on_missing_source :
    conMsgs (folder_sync ⟨fun _ => false, fun _ => false⟩ ["source"] ["replica"] none
        (some (Node.dir []))).trace ≠
      logMsgs (folder_sync ⟨fun _ => false, fun _ => false⟩ ["source"] ["replica"] none
        (some (Node.dir []))).trace := by decide

/-! ### Per-entry failure accounting -/

theorem failFree_append (a b : List Ev) :
    failFree (a ++ b) = (failFree a && failFree b) := by
  simp [failFree, List.all_append]

theorem copyOne_ok_iff (env : Env) (sp rp : FPath) (sc rc : List (String × Node))
    (n : String) :
    (copyOne env sp rp sc rc n).2.2 = true ↔
      failFree (copyOne env sp rp sc rc n).2.1 = true := by
  unfold copyOne
  rcases lookupC sc n with _ | ⟨s | dch⟩ <;>
    simp [customPrint, failFree, isFailEv] <;> split <;> simp [isFailEv]

theorem copyOne_exc_of_fail (env : Env) (sp rp : FPath) (sc rc : List (String × Node))
    (n : String) (h : (copyOne env sp rp sc rc n).2.2 = false) :
    Ev.log (Msg.copyExc n) ∈ (copyOne env sp rp sc rc n).2.1 := by
  revert h
  unfold copyOne
  rcases lookupC sc n with _ | ⟨s | dch⟩ <;> simp [customPrint] <;> split <;> simp

theorem copyOne_action (env : Env) (sp rp : FPath) (sc rc : List (String × Node))
    (n : String) :
    Ev.log (Msg.copyFolder (sp ++ [n]) (rp ++ [n])) ∈ (copyOne env sp rp sc rc n).2.1 ∨
    Ev.log (Msg.copyFile (sp ++ [n]) (rp ++ [n])) ∈ (copyOne env sp rp sc rc n).2.1 := by
  unfold copyOne
  rcases lookupC sc n with _ | ⟨s | dch⟩ <;> simp [customPrint] <;> split <;> simp

theorem copy_ok_iff_failFree (env : Env) (sp rp : FPath) (sc : List (String × Node)) :
    ∀ (l : List String) (rc : List (String × Node)),
      (copy_new_modified_files env sp rp sc rc l).ok = true ↔
        failFree (copy_new_modified_files env sp rp sc rc l).trace = true
  | [], rc => by simp [copy_new_modified_files, failFree]
  | n :: rest, rc => by
    have h1 := copyOne_ok_iff env sp rp sc rc n
    have h2 := copy_ok_iff_failFree env sp rp sc rest (copyOne env sp rp sc rc n).1
    simp only [copy_new_modified_files, failFree_append, Bool.and_eq_true]
    tauto

theorem copy_attempts (env : Env) (sp rp : FPath) (sc : List (String × Node)) :
    ∀ (l : List String) (rc : List (String × Node)) (n : String), n ∈ l →
      Ev.log (Msg.copyFolder (sp ++ [n]) (rp ++ [n])) ∈
          (copy_new_modified_files env sp rp sc rc l).trace ∨
        Ev.log (Msg.copyFile (sp ++ [n]) (rp ++ [n])) ∈
          (copy_new_modified_files env sp rp sc rc l).trace
  | [], rc, n => by simp
  | m :: rest, rc, n => by
    intro hm
    rcases List.mem_cons.1 hm with rfl | hm'
    · rcases copyOne_action env sp rp sc rc n with h | h
      · exact Or.inl (by simp [copy_new_modified_files, List.mem_append, h])
      · exact Or.inr (by simp [copy_new_modified_files, List.mem_append, h])
    · rcases copy_attempts env sp rp sc rest (copyOne env sp rp sc rc m).1 n hm' with h | h
      · exact Or.inl (by simp [copy_new_modified_files, List.mem_append, h])
      · exact Or.inr (by simp [copy_new_modified_files, List.mem_append, h])

theorem copy_exc_of_not_ok (env : Env) (sp rp : FPath) (sc : List (String × Node)) :
    ∀ (l : List String) (rc : List (String × Node)),
      (copy_new_modified_files env sp rp sc rc l).ok = false →
        ∃ n ∈ l, Ev.log (Msg.copyExc n) ∈ (copy_new_modified_files env sp rp sc rc l).trace
  | [], rc => by simp [copy_new_modified_files]
  | m :: rest, rc => by
    intro h
    simp only [copy_new_modified_files, Bool.and_eq_false_iff] at h
    rcases h with h | h
    · exact ⟨m, List.mem_cons_self .., by
        simp [copy_new_modified_files, List.mem_append,
          copyOne_exc_of_fail env sp rp sc rc m h]⟩
    · obtain ⟨n, hn, hmem⟩ :=
        copy_exc_of_not_ok env sp rp sc rest (copyOne env sp rp sc rc m).1 h
      exact ⟨n, List.mem_cons_of_mem _ hn, by
        simp [copy_new_modified_files, List.mem_append, hmem]⟩

theorem deleteOne_ok_iff (env : Env) (root : FPath) (rc : List (String × Node))
    (n : String) :
    (deleteOne env root rc n).2.2 = true ↔
      failFree (deleteOne env root rc n).2.1 = true := by
  unfold deleteOne
  rcases lookupC rc n with _ | ⟨s | dch⟩ <;>
    simp [customPrint, failFree, isFailEv] <;> split <;> simp [isFailEv]

theorem deleteOne_exc_of_fail (env : Env) (root : FPath) (rc : List (String × Node))
    (n : String) (h : (deleteOne env root rc n).2.2 = false) :
    Ev.log (Msg.delExc n) ∈ (deleteOne env root rc n).2.1 := by
  revert h
  unfold deleteOne
  rcases lookupC rc n with _ | ⟨s | dch⟩ <;> simp [customPrint] <;> split <;> simp

theorem deleteOne_action (env : Env) (root : FPath) (rc : List (String × Node))
    (n : String) :
    Ev.log (Msg.delFolder (root ++ [n])) ∈ (deleteOne env root rc n).2.1 ∨
    Ev.log (Msg.delFile (root ++ [n])) ∈ (deleteOne env root rc n).2.1 := by
  unfold deleteOne
  rcases lookupC rc n with _ | ⟨s | dch⟩ <;> simp [customPrint] <;> split <;> simp

theorem delete_ok_iff_failFree (env : Env) (root : FPath) :
    ∀ (l : List String) (rc : List (String × Node)),
      (delete_locations env root rc l).ok = true ↔
        failFree (delete_locations env root rc l).trace = true
  | [], rc => by simp [delete_locations, failFree]
  | n :: rest, rc => by
    have h1 := deleteOne_ok_iff env root rc n
    have h2 := delete_ok_iff_failFree env root rest (deleteOne env root rc n).1
    simp only [delete_locations, failFree_append, Bool.and_eq_true]
    tauto

theorem delete_attempts (env : Env) (root : FPath) :
    ∀ (l : List String) (rc : List (String × Node)) (n : String), n ∈ l →
      Ev.log (Msg.delFolder (root ++ [n])) ∈ (delete_locations env root rc l).trace ∨
        Ev.log (Msg.delFile (root ++ [n])) ∈ (delete_locations env root rc l).trace
  | [], rc, n => by simp
  | m :: rest, rc, n => by
    intro hm
    rcases List.mem_cons.1 hm with rfl | hm'
    · rcases deleteOne_action env root rc n with h | h
      · exact Or.inl (by simp [delete_locations, List.mem_append, h])
      · exact Or.inr (by simp [delete_locations, List.mem_append, h])
    · rcases delete_attempts env root rest (deleteOne env root rc m).1 n hm' with h | h
      · exact Or.inl (by simp [delete_locations, List.mem_append, h])
      · exact Or.inr (by simp [delete_locations, List.mem_append, h])

theorem delete_exc_of_not_ok (env : Env) (root : FPath) :
    ∀ (l : List String) (rc : List (String × Node)),
      (delete_locations env root rc l).ok = false →
        ∃ n ∈ l, Ev.log (Msg.delExc n) ∈ (delete_locations env root rc l).trace
  | [], rc => by simp [delete_locations]
  | m :: rest, rc => by
    intro h
    simp only [delete_locations, Bool.and_eq_false_iff] at h
    rcases h with h | h
    · exact ⟨m, List.mem_cons_self .., by
        simp [delete_locations, List.mem_append,
          deleteOne_exc_of_fail env root rc m h]⟩
    · obtain ⟨n, hn, hmem⟩ :=
        delete_exc_of_not_ok env root rest (deleteOne env root rc m).1 h
      exact ⟨n, List.mem_cons_of_mem _ hn, by
        simp [delete_locations, List.mem_append, hmem]⟩

/-! ### C4: per-entry isolation of reconciler and purger -/

/-- C4: for any input list, the reconciler and the purger attempt every name —
the per-name action line is in the trace no matter which other entries fail;
a failing entry leaves an exception log line carrying its name; and each
function returns `true` exactly when no per-entry failure was logged. -/
theorem per_entry_isolation (env : Env) (sp rp root : FPath)
    (sc rc rc2 : List (String × Node)) (l1 l2 : List String) :
    ((copy_new_modified_files env sp rp sc rc l1).ok = true ↔
        failFree (copy_new_modified_files env sp rp sc rc l1).trace = true) ∧
    (∀ n ∈ l1,
        Ev.log (Msg.copyFolder (sp ++ [n]) (rp ++ [n])) ∈
            (copy_new_modified_files env sp rp sc rc l1).trace ∨
          Ev.log (Msg.copyFile (sp ++ [n]) (rp ++ [n])) ∈
            (copy_new_modified_files env sp rp sc rc l1).trace) ∧
    ((copy_new_modified_files env sp rp sc rc l1).ok = false →
        ∃ n ∈ l1, Ev.log (Msg.copyExc n) ∈
          (copy_new_modified_files env sp rp sc rc l1).trace) ∧
    ((delete_locations env root rc2 l2).ok = true ↔
        failFree (delete_locations env root rc2 l2).trace = true) ∧
    (∀ n ∈ l2,
        Ev.log (Msg.delFolder (root ++ [n])) ∈ (delete_locations env root rc2 l2).trace ∨
          Ev.log (Msg.delFile (root ++ [n])) ∈ (delete_locations env root rc2 l2).trace) ∧
    ((delete_locations env root rc2 l2).ok = false →
        ∃ n ∈ l2, Ev.log (Msg.delExc n) ∈ (delete_locations env root rc2 l2).trace) :=
  ⟨copy_ok_iff_failFree env sp rp sc l1 rc,
    fun n hn => copy_attempts env sp rp sc l1 rc n hn,
    copy_exc_of_not_ok env sp rp sc l1 rc,
    delete_ok_iff_failFree env root l2 rc2,
    fun n hn => delete_attempts env root l2 rc2 n hn,
    delete_exc_of_not_ok env root l2 rc2⟩

/-- Witness for C4 at a concrete input: a two-entry list where the first entry
(`"a"`, whose copy is made to fail by the oracle) does not prevent the
second (`"b"`) from being attempted, and the returned boolean is false. -/
theorem per_entry_isolation_witness :
    ("b" ∈ (["a", "b"] : List String)) ∧
    (Ev.log (Msg.copyFolder (["s"] ++ ["b"]) (["r"] ++ ["b"])) ∈
        (copy_new_modified_files
          ⟨fun p => decide (p = ["r", "a"]), fun _ => false⟩ ["s"] ["r"]
          [("a", Node.file 0), ("b", Node.dir [])] [] ["a", "b"]).trace ∨
      Ev.log (Msg.copyFile (["s"] ++ ["b"]) (["r"] ++ ["b"])) ∈
        (copy_new_modified_files
          ⟨fun p => decide (p = ["r", "a"]), fun _ => false⟩ ["s"] ["r"]
          [("a", Node.file 0), ("b", Node.dir [])] [] ["a", "b"]).trace) :=
  ⟨by decide,
    (per_entry_isolation ⟨fun p => decide (p = ["r", "a"]), fun _ => false⟩
      ["s"] ["r"] ["r"] [("a", Node.file 0), ("b", Node.dir [])] [] []
      ["a", "b"] []).2.1 "b" (by decide)⟩

/-! ### C3: stop-on-failure ordering -/

theorem copyOne_no_del (env : Env) (sp rp : FPath) (sc rc : List (String × Node))
    (n : String) :
    (copyOne env sp rp sc rc n).2.1.all (fun e => !isDelEv e) = true := by
  unfold copyOne
  rcases lookupC sc n with _ | ⟨s | dch⟩ <;> simp [customPrint, isDelEv] <;>
    split <;> simp [isDelEv]

theorem copy_no_del (env : Env) (sp rp : FPath) (sc : List (String × Node)) :
    ∀ (l : List String) (rc : List (String × Node)),
      (copy_new_modified_files env sp rp sc rc l).trace.all (fun e => !isDelEv e) = true
  | [], rc => by simp [copy_new_modified_files]
  | n :: rest, rc => by
    simp only [copy_new_modified_files, List.all_append, Bool.and_eq_true]
    exact ⟨copyOne_no_del env sp rp sc rc n,
      copy_no_del env sp rp sc rest (copyOne env sp rp sc rc n).1⟩

/-- C3: at one directory level, if the reconcile pass over
`left_only + diff_files` reports a failure, `_folder_sync` returns with
exactly the reconciler's trace and replica state — the purger contributes
nothing (the trace contains no purge event at all) and no recursion into any
subdirectory happens; if reconciling succeeds but the purge pass fails, the
run returns with exactly the reconcile-plus-purge trace and state — again
with no recursion. -/
theorem stop_on_failure (env : Env) (sp rp : FPath) (sc rc : List (String × Node))
    (rec1 del : StepRes)
    (hrec : rec1 = copy_new_modified_files env sp rp sc rc
      ((dircmp sc rc).left_only ++ (dircmp sc rc).diff_files))
    (hdel : del = delete_locations env rp rec1.repl (dircmp sc rc).right_only) :
    (rec1.ok = false →
      folder_syncCore env sp rp (Node.dir sc) (Node.dir rc) =
          ⟨some (Node.dir rec1.repl), rec1.trace, Outcome.done⟩ ∧
        rec1.trace.all (fun e => !isDelEv e) = true) ∧
    (rec1.ok = true → del.ok = false →
      folder_syncCore env sp rp (Node.dir sc) (Node.dir rc) =
        ⟨some (Node.dir del.repl), rec1.trace ++ del.trace, Outcome.done⟩) := by
  subst hrec
  subst hdel
  constructor
  · intro h
    refine ⟨?_, copy_no_del env sp rp sc _ rc⟩
    simp [folder_syncCore, h]
  · intro h1 h2
    simp [folder_syncCore, h1, h2]

/-- Witness for C3 at two concrete levels: a failing copy of `"a"` stops the
level with only the reconciler's four events, and a failing deletion of
`"b"` stops the level after the purge events. -/
theorem stop_on_failure_witness :
    folder_syncCore ⟨fun p => decide (p = ["r", "a"]), fun _ => false⟩ ["s"] ["r"]
        (Node.dir [("a", Node.file 0)]) (Node.dir []) =
      ⟨some (Node.dir []),
        [Ev.con (Msg.copyFile ["s", "a"] ["r", "a"]),
          Ev.log (Msg.copyFile ["s", "a"] ["r", "a"]),
          Ev.con (Msg.copyExc "a"), Ev.log (Msg.copyExc "a")], Outcome.done⟩ ∧
    folder_syncCore ⟨fun _ => false, fun p => decide (p = ["r", "b"])⟩ ["s"] ["r"]
        (Node.dir []) (Node.dir [("b", Node.file 1)]) =
      ⟨some (Node.dir [("b", Node.file 1)]),
        [Ev.con (Msg.delFile ["r", "b"]), Ev.log (Msg.delFile ["r", "b"]),
          Ev.con (Msg.delExc "b"), Ev.log (Msg.delExc "b")], Outcome.done⟩ :=
  ⟨((stop_on_failure ⟨fun p => decide (p = ["r", "a"]), fun _ => false⟩ ["s"] ["r"]
      [("a", Node.file 0)] [] _ _ rfl rfl).1 (by decide)).1,
    (stop_on_failure ⟨fun _ => false, fun p => decide (p = ["r", "b"])⟩ ["s"] ["r"]
      [] [("b", Node.file 1)] _ _ rfl rfl).2 (by decide) (by decide)⟩

/-! ### C6: all writes target the replica -/

/-- Every filesystem write or delete in `evs` stays at or below `root`. -/
def targetsUnder (root : FPath) (evs : List Ev) : Prop :=
  ∀ e ∈ evs, ∀ p ∈ writeTargets e, underDir root p

theorem targetsUnder_nil (root : FPath) : targetsUnder root [] := by
  intro e he
  simp at he

theorem targetsUnder_append (root : FPath) (a b : List Ev)
    (ha : targetsUnder root a) (hb : targetsUnder root b) :
    targetsUnder root (a ++ b) := by
  intro e he
  rcases List.mem_append.1 he with h | h
  · exact ha e h
  · exact hb e h

theorem targetsUnder_customPrint (root : FPath) (m : Msg) :
    targetsUnder root (customPrint m) := by
  intro e he p hp
  simp [customPrint] at he
  rcases he with rfl | rfl <;> simp [writeTargets] at hp

theorem targetsUnder_mono (root ext : FPath) (evs : List Ev)
    (h : targetsUnder (root ++ ext) evs) : targetsUnder root evs := by
  intro e he p hp
  obtain ⟨q, hq⟩ := h e he p hp
  exact ⟨ext ++ q, by simp [hq]⟩

theorem copyOne_fs_all (env : Env) (sp rp : FPath) (sc rc : List (String × Node))
    (n : String) :
    (copyOne env sp rp sc rc n).2.1.all
      (fun e => (writeTargets e).all (fun p => p == rp ++ [n])) = true := by
  unfold copyOne
  rcases lookupC sc n with _ | ⟨s | dch⟩ <;> simp [customPrint, writeTargets] <;>
    split <;> simp [writeTargets]

theorem copyOne_targets (env : Env) (sp rp : FPath) (sc rc : List (String × Node))
    (n : String) : targetsUnder rp (copyOne env sp rp sc rc n).2.1 := by
  intro e he p hp
  have h := copyOne_fs_all env sp rp sc rc n
  rw [List.all_eq_true] at h
  have h2 := h e he
  rw [List.all_eq_true] at h2
  have h3 := h2 p hp
  rw [beq_iff_eq] at h3
  exact ⟨[n], h3⟩

theorem copy_targets (env : Env) (sp rp : FPath) (sc : List (String × Node)) :
    ∀ (l : List String) (rc : List (String × Node)),
      targetsUnder rp (copy_new_modified_files env sp rp sc rc l).trace
  | [], rc => targetsUnder_nil rp
  | n :: rest, rc => by
    simp only [copy_new_modified_files]
    exact targetsUnder_append _ _ _ (copyOne_targets env sp rp sc rc n)
      (copy_targets env sp rp sc rest (copyOne env sp rp sc rc n).1)

theorem deleteOne_fs_all (env : Env) (root : FPath) (rc : List (String × Node))
    (n : String) :
    (deleteOne env root rc n).2.1.all
      (fun e => (writeTargets e).all (fun p => p == root ++ [n])) = true := by
  unfold deleteOne
  rcases lookupC rc n with _ | ⟨s | dch⟩ <;> simp [customPrint, writeTargets] <;>
    split <;> simp [writeTargets]

theorem deleteOne_targets (env : Env) (root : FPath) (rc : List (String × Node))
    (n : String) : targetsUnder root (deleteOne env root rc n).2.1 := by
  intro e he p hp
  have h := deleteOne_fs_all env root rc n
  rw [List.all_eq_true] at h
  have h2 := h e he
  rw [List.all_eq_true] at h2
  have h3 := h2 p hp
  rw [beq_iff_eq] at h3
  exact ⟨[n], h3⟩

theorem delete_targets (env : Env) (root : FPath) :
    ∀ (l : List String) (rc : List (String × Node)),
      targetsUnder root (delete_locations env root rc l).trace
  | [], rc => targetsUnder_nil root
  | n :: rest, rc => by
    simp only [delete_locations]
    exact targetsUnder_append _ _ _ (deleteOne_targets env root rc n)
      (delete_targets env root rest (deleteOne env root rc n).1)

theorem replicaAbsent_fs_all (env : Env) (sp rp : FPath) (s : Node) :
    (replicaAbsent env sp rp s).trace.all
      (fun e => (writeTargets e).all (fun p => p == rp)) = true := by
  unfold replicaAbsent
  rcases s with s | sc <;> simp [customPrint, writeTargets]
  split <;> simp [writeTargets]

theorem replicaAbsent_targets (env : Env) (sp rp : FPath) (s : Node) :
    targetsUnder rp (replicaAbsent env sp rp s).trace := by
  intro e he p hp
  have h := replicaAbsent_fs_all env sp rp s
  rw [List.all_eq_true] at h
  have h2 := h e he
  rw [List.all_eq_true] at h2
  have h3 := h2 p hp
  rw [beq_iff_eq] at h3
  exact ⟨[], by simp [h3]⟩

mutual

theorem core_targets (env : Env) (sp rp : FPath) :
    ∀ s r : Node, targetsUnder rp (folder_syncCore env sp rp s r).trace
  | Node.dir sc, Node.dir rc => by
    simp only [folder_syncCore]
    rcases h1 : (copy_new_modified_files env sp rp sc rc
        ((dircmp sc rc).left_only ++ (dircmp sc rc).diff_files)).ok with _ | _
    · simp only [h1, Bool.false_eq_true, if_false]
      exact copy_targets env sp rp sc _ rc
    · simp only [h1, if_true]
      rcases h2 : (delete_locations env rp
          (copy_new_modified_files env sp rp sc rc
            ((dircmp sc rc).left_only ++ (dircmp sc rc).diff_files)).repl
          (dircmp sc rc).right_only).ok with _ | _
      · simp only [h2, Bool.false_eq_true, if_false]
        exact targetsUnder_append _ _ _ (copy_targets env sp rp sc _ rc)
          (delete_targets env rp _ _)
      · simp only [h2, if_true]
        exact targetsUnder_append _ _ _
          (targetsUnder_append _ _ _ (copy_targets env sp rp sc _ rc)
            (delete_targets env rp _ _))
          (kids_targets env sp rp (dircmp sc rc).common_dirs sc _)
  | Node.dir _, Node.file _ => targetsUnder_nil rp
  | Node.file _, Node.dir _ => targetsUnder_nil rp
  | Node.file _, Node.file _ => targetsUnder_nil rp

theorem kids_targets (env : Env) (sp rp : FPath) (dirNames : List String) :
    ∀ kids rc : List (String × Node),
      targetsUnder rp (syncChildren env sp rp dirNames kids rc).2.1
  | [], rc => targetsUnder_nil rp
  | (n, child) :: rest, rc => by
    simp only [syncChildren]
    by_cases hn : dirNames.contains n
    · simp only [hn, if_true]
      rcases hrc : lookupC rc n with _ | rchild
      · simp only [hrc]
        rcases ho : (replicaAbsent env (sp ++ [n]) (rp ++ [n]) child).outcome with _ | _ | _
        · simp only [ho]
          exact targetsUnder_append _ _ _
            (targetsUnder_mono rp [n] _ (replicaAbsent_targets env _ _ child))
            (kids_targets env sp rp dirNames rest _)
        · simp only [ho]
          exact targetsUnder_mono rp [n] _ (replicaAbsent_targets env _ _ child)
        · simp only [ho]
          exact targetsUnder_mono rp [n] _ (replicaAbsent_targets env _ _ child)
      · simp only [hrc]
        rcases ho : (folder_syncCore env (sp ++ [n]) (rp ++ [n]) child rchild).outcome with _ | _ | _
        · simp only [ho]
          exact targetsUnder_append _ _ _
            (targetsUnder_mono rp [n] _ (core_targets env (sp ++ [n]) (rp ++ [n]) child rchild))
            (kids_targets env sp rp dirNames rest _)
        · simp only [ho]
          exact targetsUnder_mono rp [n] _ (core_targets env (sp ++ [n]) (rp ++ [n]) child rchild)
        · simp only [ho]
          exact targetsUnder_mono rp [n] _ (core_targets env (sp ++ [n]) (rp ++ [n]) child rchild)
    · simp only [hn, Bool.false_eq_true, if_false]
      exact kids_targets env sp rp dirNames rest rc

end

/-- C6: in every invocation of the orchestrator, the reconciler, or the purger
— whatever the outcome — every filesystem write and delete in the emitted
trace targets a path at or below the replica root (for the purger: its root
argument, which the orchestrator instantiates with the replica folder); the
source tree is never written to or deleted from. -/
theorem writes_only_under_replica (env : Env) (sp rp root : FPath)
    (src repl : Option Node) (sc rc rc2 : List (String × Node)) (l1 l2 : List String) :
    (∀ e ∈ (folder_sync env sp rp src repl).trace, ∀ p ∈ writeTargets e, underDir rp p) ∧
    (∀ e ∈ (copy_new_modified_files env sp rp sc rc l1).trace,
        ∀ p ∈ writeTargets e, underDir rp p) ∧
    (∀ e ∈ (delete_locations env root rc2 l2).trace,
        ∀ p ∈ writeTargets e, underDir root p) := by
  refine ⟨?_, copy_targets env sp rp sc l1 rc, delete_targets env root l2 rc2⟩
  unfold folder_sync
  rcases src with _ | s
  · intro e he p hp
    simp at he
    subst he
    simp [writeTargets] at hp
  · rcases repl with _ | r
    · exact replicaAbsent_targets env sp rp s
    · exact core_targets env sp rp s r

/-- Witness for C6: in a concrete run that copies one file and deletes one
entry, each write target is under the replica root `["r"]`. -/
theorem writes_only_under_replica_witness :
    underDir ["r"] ["r", "a"] := by
  have h := (writes_only_under_replica ⟨fun _ => false, fun _ => false⟩
    ["s"] ["r"] ["r"] (some (Node.dir [("a", Node.file 0)])) (some (Node.dir []))
    [] [] [] [] []).1
  exact h (Ev.fsCopyFile ["s", "a"] ["r", "a"]) (by decide) ["r", "a"] (by decide)

/-! ### C10: the action log line precedes the operation -/

theorem copyOne_trace_shape (env : Env) (sp rp : FPath) (sc rc : List (String × Node))
    (n : String) :
    (copyOne env sp rp sc rc n).2.1 =
        customPrint (Msg.copyFolder (sp ++ [n]) (rp ++ [n])) ++ customPrint (Msg.copyExc n) ∨
      (copyOne env sp rp sc rc n).2.1 =
        customPrint (Msg.copyFile (sp ++ [n]) (rp ++ [n])) ++ customPrint (Msg.copyExc n) ∨
      (copyOne env sp rp sc rc n).2.1 =
        customPrint (Msg.copyFolder (sp ++ [n]) (rp ++ [n])) ++
          [Ev.fsCopyTree (sp ++ [n]) (rp ++ [n])] ∨
      (copyOne env sp rp sc rc n).2.1 =
        customPrint (Msg.copyFile (sp ++ [n]) (rp ++ [n])) ++
          [Ev.fsCopyFile (sp ++ [n]) (rp ++ [n])] := by
  unfold copyOne
  rcases lookupC sc n with _ | ⟨s | dch⟩ <;> simp [customPrint] <;> split <;> simp

theorem deleteOne_trace_shape (env : Env) (root : FPath) (rc : List (String × Node))
    (n : String) :
    (deleteOne env root rc n).2.1 =
        customPrint (Msg.delFolder (root ++ [n])) ++ customPrint (Msg.delExc n) ∨
      (deleteOne env root rc n).2.1 =
        customPrint (Msg.delFile (root ++ [n])) ++ customPrint (Msg.delExc n) ∨
      (deleteOne env root rc n).2.1 =
        customPrint (Msg.delFolder (root ++ [n])) ++ [Ev.fsDelTree (root ++ [n])] ∨
      (deleteOne env root rc n).2.1 =
        customPrint (Msg.delFile (root ++ [n])) ++ [Ev.fsDelFile (root ++ [n])] := by
  unfold deleteOne
  rcases lookupC rc n with _ | ⟨s | dch⟩ <;> simp [customPrint] <;> split <;> simp

/-- Every filesystem event in the trace is immediately preceded by the console
print and log append of its announcing action message. -/
def opsAnnounced (tr : List Ev) : Prop :=
  ∀ pre e post m, tr = pre ++ e :: post → actionFor e = some m →
    ∃ pre2, pre = pre2 ++ [Ev.con m, Ev.log m]

theorem opsAnnounced_of_no_fs (tr : List Ev)
    (h : ∀ e ∈ tr, actionFor e = none) : opsAnnounced tr := by
  intro pre e post m heq hact
  exfalso
  have he : e ∈ tr := by
    rw [heq]
    exact List.mem_append.2 (Or.inr (List.mem_cons_self ..))
  rw [h e he] at hact
  cases hact

theorem opsAnnounced_append (a b : List Ev)
    (ha : opsAnnounced a) (hb : opsAnnounced b) : opsAnnounced (a ++ b) := by
  intro pre e post m heq hact
  rcases List.append_eq_append_iff.1 heq with ⟨a', hpre, hb'⟩ | ⟨c', ha', hd⟩
  · obtain ⟨pre2, h2⟩ := hb a' e post m hb' hact
    exact ⟨a ++ pre2, by rw [hpre, h2, List.append_assoc]⟩
  · rcases c' with _ | ⟨x, c''⟩
    · obtain ⟨pre2, hpre2⟩ := hb [] e post m (by simpa using hd.symm) hact
      exact absurd hpre2 (by simp)
    · simp only [List.cons_append] at hd
      injection hd with h1 h2
      subst h1
      subst h2
      exact ha pre e c'' m ha' hact

theorem opsAnnounced_print_block (m : Msg) (e0 : Ev) (h : actionFor e0 = some m) :
    opsAnnounced (customPrint m ++ [e0]) := by
  intro pre e post m' heq hact
  rcases pre with _ | ⟨x, _ | ⟨y, _ | ⟨z, rest⟩⟩⟩
  · simp [customPrint] at heq
    obtain ⟨rfl, -⟩ := heq
    simp [actionFor] at hact
  · simp [customPrint] at heq
    obtain ⟨rfl, rfl, -⟩ := heq
    simp [actionFor] at hact
  · simp [customPrint] at heq
    obtain ⟨rfl, rfl, rfl, -⟩ := heq
    rw [h] at hact
    obtain rfl : m' = m := by injection hact with hh; exact hh.symm
    exact ⟨[], by simp⟩
  · simp [customPrint] at heq

theorem copyOne_announced (env : Env) (sp rp : FPath) (sc rc : List (String × Node))
    (n : String) : opsAnnounced (copyOne env sp rp sc rc n).2.1 := by
  have hfail : ∀ a : Msg, opsAnnounced (customPrint a ++ customPrint (Msg.copyExc n)) :=
    fun a => opsAnnounced_of_no_fs _ (by
      intro e he
      simp [customPrint] at he
      rcases he with rfl | rfl | rfl | rfl <;> rfl)
  rcases copyOne_trace_shape env sp rp sc rc n with h | h | h | h <;> rw [h]
  · exact hfail _
  · exact hfail _
  · exact opsAnnounced_print_block _ _ rfl
  · exact opsAnnounced_print_block _ _ rfl

theorem copy_announced (env : Env) (sp rp : FPath) (sc : List (String × Node)) :
    ∀ (l : List String) (rc : List (String × Node)),
      opsAnnounced (copy_new_modified_files env sp rp sc rc l).trace
  | [], rc => opsAnnounced_of_no_fs _ (by simp [copy_new_modified_files])
  | n :: rest, rc => by
    simp only [copy_new_modified_files]
    exact opsAnnounced_append _ _ (copyOne_announced env sp rp sc rc n)
      (copy_announced env sp rp sc rest (copyOne env sp rp sc rc n).1)

theorem deleteOne_announced (env : Env) (root : FPath) (rc : List (String × Node))
    (n : String) : opsAnnounced (deleteOne env root rc n).2.1 := by
  have hfail : ∀ a : Msg, opsAnnounced (customPrint a ++ customPrint (Msg.delExc n)) :=
    fun a => opsAnnounced_of_no_fs _ (by
      intro e he
      simp [customPrint] at he
      rcases he with rfl | rfl | rfl | rfl <;> rfl)
  rcases deleteOne_trace_shape env root rc n with h | h | h | h <;> rw [h]
  · exact hfail _
  · exact hfail _
  · exact opsAnnounced_print_block _ _ rfl
  · exact opsAnnounced_print_block _ _ rfl

theorem delete_announced (env : Env) (root : FPath) :
    ∀ (l : List String) (rc : List (String × Node)),
      opsAnnounced (delete_locations env root rc l).trace
  | [], rc => opsAnnounced_of_no_fs _ (by simp [delete_locations])
  | n :: rest, rc => by
    simp only [delete_locations]
    exact opsAnnounced_append _ _ (deleteOne_announced env root rc n)
      (delete_announced env root rest (deleteOne env root rc n).1)

theorem logMsgs_customPrint (m : Msg) : logMsgs (customPrint m) = [m] := by
  simp [customPrint, logMsgs]

theorem logMsgs_fsCopyTree (a b : FPath) : logMsgs [Ev.fsCopyTree a b] = [] := by
  simp [logMsgs]

theorem logMsgs_fsCopyFile (a b : FPath) : logMsgs [Ev.fsCopyFile a b] = [] := by
  simp [logMsgs]

theorem logMsgs_fsDelTree (a : FPath) : logMsgs [Ev.fsDelTree a] = [] := by
  simp [logMsgs]

theorem logMsgs_fsDelFile (a : FPath) : logMsgs [Ev.fsDelFile a] = [] := by
  simp [logMsgs]

theorem copy_exc_after_action (env : Env) (sp rp : FPath) (sc : List (String × Node)) :
    ∀ (l : List String) (rc : List (String × Node)) (n : String),
      Msg.copyExc n ∈ logMsgs (copy_new_modified_files env sp rp sc rc l).trace →
      ∃ p1 p2 p3 a,
        logMsgs (copy_new_modified_files env sp rp sc rc l).trace =
          p1 ++ a :: (p2 ++ Msg.copyExc n :: p3) ∧
        (a = Msg.copyFolder (sp ++ [n]) (rp ++ [n]) ∨
          a = Msg.copyFile (sp ++ [n]) (rp ++ [n]))
  | [], rc, n => by simp [copy_new_modified_files, logMsgs]
  | m0 :: rest, rc, n => by
    intro hmem
    have hind := copy_exc_after_action env sp rp sc rest (copyOne env sp rp sc rc m0).1
    simp only [copy_new_modified_files, logMsgs_append] at hmem ⊢
    rcases copyOne_trace_shape env sp rp sc rc m0 with h | h | h | h <;>
      rw [h] at hmem ⊢ <;>
      simp only [logMsgs_append, logMsgs_customPrint, logMsgs_fsCopyTree,
        logMsgs_fsCopyFile, List.cons_append, List.nil_append] at hmem ⊢
    · rcases List.mem_cons.1 hmem with hcontra | hmem'
      · cases hcontra
      · rcases List.mem_cons.1 hmem' with hn | hrest
        · obtain rfl : n = m0 := by injection hn
          exact ⟨[], [],
            logMsgs (copy_new_modified_files env sp rp sc
              (copyOne env sp rp sc rc n).1 rest).trace,
            Msg.copyFolder (sp ++ [n]) (rp ++ [n]), by simp, Or.inl rfl⟩
        · obtain ⟨p1, p2, p3, a, heq, ha⟩ := hind n hrest
          exact ⟨Msg.copyFolder (sp ++ [m0]) (rp ++ [m0]) :: Msg.copyExc m0 :: p1,
            p2, p3, a, by simp [heq], ha⟩
    · rcases List.mem_cons.1 hmem with hcontra | hmem'
      · cases hcontra
      · rcases List.mem_cons.1 hmem' with hn | hrest
        · obtain rfl : n = m0 := by injection hn
          exact ⟨[], [],
            logMsgs (copy_new_modified_files env sp rp sc
              (copyOne env sp rp sc rc n).1 rest).trace,
            Msg.copyFile (sp ++ [n]) (rp ++ [n]), by simp, Or.inr rfl⟩
        · obtain ⟨p1, p2, p3, a, heq, ha⟩ := hind n hrest
          exact ⟨Msg.copyFile (sp ++ [m0]) (rp ++ [m0]) :: Msg.copyExc m0 :: p1,
            p2, p3, a, by simp [heq], ha⟩
    · rcases List.mem_cons.1 hmem with hcontra | hrest
      · cases hcontra
      · obtain ⟨p1, p2, p3, a, heq, ha⟩ := hind n hrest
        exact ⟨Msg.copyFolder (sp ++ [m0]) (rp ++ [m0]) :: p1, p2, p3, a,
          by simp [heq], ha⟩
    · rcases List.mem_cons.1 hmem with hcontra | hrest
      · cases hcontra
      · obtain ⟨p1, p2, p3, a, heq, ha⟩ := hind n hrest
        exact ⟨Msg.copyFile (sp ++ [m0]) (rp ++ [m0]) :: p1, p2, p3, a,
          by simp [heq], ha⟩

theorem delete_exc_after_action (env : Env) (root : FPath) :
    ∀ (l : List String) (rc : List (String × Node)) (n : String),
      Msg.delExc n ∈ logMsgs (delete_locations env root rc l).trace →
      ∃ p1 p2 p3 a,
        logMsgs (delete_locations env root rc l).trace =
          p1 ++ a :: (p2 ++ Msg.delExc n :: p3) ∧
        (a = Msg.delFolder (root ++ [n]) ∨ a = Msg.delFile (root ++ [n]))
  | [], rc, n => by simp [delete_locations, logMsgs]
  | m0 :: rest, rc, n => by
    intro hmem
    have hind := delete_exc_after_action env root rest (deleteOne env root rc m0).1
    simp only [delete_locations, logMsgs_append] at hmem ⊢
    rcases deleteOne_trace_shape env root rc m0 with h | h | h | h <;>
      rw [h] at hmem ⊢ <;>
      simp only [logMsgs_append, logMsgs_customPrint, logMsgs_fsDelTree,
        logMsgs_fsDelFile, List.cons_append, List.nil_append] at hmem ⊢
    · rcases List.mem_cons.1 hmem with hcontra | hmem'
      · cases hcontra
      · rcases List.mem_cons.1 hmem' with hn | hrest
        · obtain rfl : n = m0 := by injection hn
          exact ⟨[], [],
            logMsgs (delete_locations env root (deleteOne env root rc n).1 rest).trace,
            Msg.delFolder (root ++ [n]), by simp, Or.inl rfl⟩
        · obtain ⟨p1, p2, p3, a, heq, ha⟩ := hind n hrest
          exact ⟨Msg.delFolder (root ++ [m0]) :: Msg.delExc m0 :: p1,
            p2, p3, a, by simp [heq], ha⟩
    · rcases List.mem_cons.1 hmem with hcontra | hmem'
      · cases hcontra
      · rcases List.mem_cons.1 hmem' with hn | hrest
        · obtain rfl : n = m0 := by injection hn
          exact ⟨[], [],
            logMsgs (delete_locations env root (deleteOne env root rc n).1 rest).trace,
            Msg.delFile (root ++ [n]), by simp, Or.inr rfl⟩
        · obtain ⟨p1, p2, p3, a, heq, ha⟩ := hind n hrest
          exact ⟨Msg.delFile (root ++ [m0]) :: Msg.delExc m0 :: p1,
            p2, p3, a, by simp [heq], ha⟩
    · rcases List.mem_cons.1 hmem with hcontra | hrest
      · cases hcontra
      · obtain ⟨p1, p2, p3, a, heq, ha⟩ := hind n hrest
        exact ⟨Msg.delFolder (root ++ [m0]) :: p1, p2, p3, a, by simp [heq], ha⟩
    · rcases List.mem_cons.1 hmem with hcontra | hrest
      · cases hcontra
      · obtain ⟨p1, p2, p3, a, heq, ha⟩ := hind n hrest
        exact ⟨Msg.delFile (root ++ [m0]) :: p1, p2, p3, a, by simp [heq], ha⟩

/-- C10: in the reconciler and the purger, the "Copying ..." / "Deleting ..."
line is emitted (printed and logged) immediately before the filesystem
operation is attempted; and whenever an entry fails, the log still contains
its action line, with the exception line for that entry appearing later — so
an action line never implies the action succeeded. -/
theorem action_logged_before_operation (env : Env) (sp rp root : FPath)
    (sc rc rc2 : List (String × Node)) (l1 l2 : List String) :
    opsAnnounced (copy_new_modified_files env sp rp sc rc l1).trace ∧
    opsAnnounced (delete_locations env root rc2 l2).trace ∧
    (∀ n, Msg.copyExc n ∈ logMsgs (copy_new_modified_files env sp rp sc rc l1).trace →
      ∃ p1 p2 p3 a,
        logMsgs (copy_new_modified_files env sp rp sc rc l1).trace =
          p1 ++ a :: (p2 ++ Msg.copyExc n :: p3) ∧
        (a = Msg.copyFolder (sp ++ [n]) (rp ++ [n]) ∨
          a = Msg.copyFile (sp ++ [n]) (rp ++ [n]))) ∧
    (∀ n, Msg.delExc n ∈ logMsgs (delete_locations env root rc2 l2).trace →
      ∃ p1 p2 p3 a,
        logMsgs (delete_locations env root rc2 l2).trace =
          p1 ++ a :: (p2 ++ Msg.delExc n :: p3) ∧
        (a = Msg.delFolder (root ++ [n]) ∨ a = Msg.delFile (root ++ [n]))) :=
  ⟨copy_announced env sp rp sc l1 rc, delete_announced env root l2 rc2,
    fun n => copy_exc_after_action env sp rp sc l1 rc n,
    fun n => delete_exc_after_action env root l2 rc2 n⟩

/-- Witness for C10: in a concrete reconcile of one file (which succeeds), the
copy event at position 2 is preceded exactly by its console and log action
lines; and in a concrete failing delete, the exception log line for `"a"`
appears after its action line. -/
theorem action_logged_before_operation_witness :
    (∃ pre2, [Ev.con (Msg.copyFile ["s", "a"] ["r", "a"]),
        Ev.log (Msg.copyFile ["s", "a"] ["r", "a"])] =
      pre2 ++ [Ev.con (Msg.copyFile ["s", "a"] ["r", "a"]),
        Ev.log (Msg.copyFile ["s", "a"] ["r", "a"])]) ∧
    (∃ p1 p2 p3 a,
      logMsgs (delete_locations ⟨fun _ => false, fun _ => true⟩ ["r"]
          [("a", Node.file 0)] ["a"]).trace =
        p1 ++ a :: (p2 ++ Msg.delExc "a" :: p3) ∧
      (a = Msg.delFolder (["r"] ++ ["a"]) ∨ a = Msg.delFile (["r"] ++ ["a"]))) :=
  ⟨(action_logged_before_operation ⟨fun _ => false, fun _ => false⟩ ["s"] ["r"] ["r"]
      [("a", Node.file 7)] [] [] ["a"] []).1
      [Ev.con (Msg.copyFile ["s", "a"] ["r", "a"]),
        Ev.log (Msg.copyFile ["s", "a"] ["r", "a"])]
      (Ev.fsCopyFile ["s", "a"] ["r", "a"]) [] (Msg.copyFile ["s", "a"] ["r", "a"])
      (by decide) rfl,
    (action_logged_before_operation ⟨fun _ => false, fun _ => true⟩ ["s"] ["r"] ["r"]
      [] [] [("a", Node.file 0)] [] ["a"]).2.2.2 "a" (by decide)⟩

/-! ### C7: sibling subtree independence -/

theorem contains_iff (l : List String) (a : String) : l.contains a = true ↔ a ∈ l := by
  simp [List.contains, List.elem_iff]

theorem isDirN_some_iff (o : Option Node) :
    isDirN o = true ↔ ∃ b, o = some (Node.dir b) := by
  rcases o with _ | ⟨s | ch⟩ <;> simp [isDirN]

theorem not_isDirN_and_isFileN (o : Option Node) :
    ¬(isDirN o = true ∧ isFileN o = true) := by
  rcases o with _ | ⟨s | ch⟩ <;> simp [isDirN, isFileN]

theorem wfB_dir (ch : List (String × Node)) :
    (Node.dir ch).wfB = true ↔ nodupB (keysC ch) = true ∧ childrenWf ch = true := by
  simp [Node.wfB, Bool.and_eq_true]

theorem childrenWf_mem (ch : List (String × Node)) (n : String) (c : Node)
    (hwf : childrenWf ch = true) (h : (n, c) ∈ ch) : c.wfB = true := by
  induction ch with
  | nil => simp at h
  | cons hd t ih =>
    obtain ⟨k, w⟩ := hd
    simp only [childrenWf, Bool.and_eq_true] at hwf
    rcases List.mem_cons.1 h with h' | h'
    · obtain ⟨-, rfl⟩ : k = n ∧ w = c := by
        simpa [Prod.mk.injEq, eq_comm] using h'
      exact hwf.1
    · exact ih hwf.2 h'

theorem mem_common_dirs (sc rc : List (String × Node)) (n : String)
    (h : n ∈ (dircmp sc rc).common_dirs) :
    isDirN (lookupC sc n) = true ∧ isDirN (lookupC rc n) = true ∧
      n ∈ (dircmp sc rc).common := by
  simp only [dircmp] at h ⊢
  have h' := List.mem_filter.1 h
  have h2 := h'.2
  rw [Bool.and_eq_true] at h2
  exact ⟨h2.1, h2.2, h'.1⟩

theorem mem_common_dirs_not_left (sc rc : List (String × Node)) (n : String)
    (h : n ∈ (dircmp sc rc).common_dirs) : n ∉ (dircmp sc rc).left_only := by
  intro hl
  simp only [dircmp] at h hl
  have h1 := (List.mem_filter.1 h).1
  have h2 := (List.mem_filter.1 h1).2
  have h3 := (List.mem_filter.1 hl).2
  rw [h2] at h3
  simp at h3

theorem mem_common_dirs_not_right (sc rc : List (String × Node)) (n : String)
    (h : n ∈ (dircmp sc rc).common_dirs) : n ∉ (dircmp sc rc).right_only := by
  intro hr
  simp only [dircmp] at h hr
  have h1 := (List.mem_filter.1 h).1
  have h2 := (List.mem_filter.1 h1).1
  have h3 := (List.mem_filter.1 hr).2
  rw [(contains_iff _ n).2 h2] at h3
  simp at h3

theorem mem_common_dirs_not_diff (sc rc : List (String × Node)) (n : String)
    (h : n ∈ (dircmp sc rc).common_dirs) : n ∉ (dircmp sc rc).diff_files := by
  intro hd
  simp only [dircmp] at h hd
  have h1 := (List.mem_filter.1 h).2
  rw [Bool.and_eq_true] at h1
  have h2 := (List.mem_filter.1 hd).1
  have h3 := (List.mem_filter.1 h2).2
  rw [Bool.and_eq_true] at h3
  exact not_isDirN_and_isFileN (lookupC sc n) ⟨h1.1, h3.1⟩

theorem copyOne_lookup_ne (env : Env) (sp rp : FPath) (sc rc : List (String × Node))
    (n m : String) (h : m ≠ n) :
    lookupC (copyOne env sp rp sc rc n).1 m = lookupC rc m := by
  unfold copyOne
  rcases lookupC sc n with _ | ⟨s | dch⟩ <;> simp <;> split <;>
    simp [lookupC_setC_ne _ _ _ _ h]

theorem copy_lookup_not_mem (env : Env) (sp rp : FPath) (sc : List (String × Node)) :
    ∀ (l : List String) (rc : List (String × Node)) (m : String), m ∉ l →
      lookupC (copy_new_modified_files env sp rp sc rc l).repl m = lookupC rc m
  | [], rc, m => by simp [copy_new_modified_files]
  | n :: rest, rc, m => fun h => by
    simp only [copy_new_modified_files]
    rw [copy_lookup_not_mem env sp rp sc rest (copyOne env sp rp sc rc n).1 m
        (fun hh => h (List.mem_cons_of_mem _ hh)),
      copyOne_lookup_ne env sp rp sc rc n m
        (fun e => h (e ▸ List.mem_cons_self ..))]

theorem deleteOne_lookup_ne (env : Env) (root : FPath) (rc : List (String × Node))
    (n m : String) (h : m ≠ n) :
    lookupC (deleteOne env root rc n).1 m = lookupC rc m := by
  unfold deleteOne
  rcases lookupC rc n with _ | ⟨s | dch⟩ <;> simp <;> split <;>
    simp [lookupC_eraseC_ne _ _ _ h]

theorem delete_lookup_not_mem (env : Env) (root : FPath) :
    ∀ (l : List String) (rc : List (String × Node)) (m : String), m ∉ l →
      lookupC (delete_locations env root rc l).repl m = lookupC rc m
  | [], rc, m => by simp [delete_locations]
  | n :: rest, rc, m => fun h => by
    simp only [delete_locations]
    rw [delete_lookup_not_mem env root rest (deleteOne env root rc n).1 m
        (fun hh => h (List.mem_cons_of_mem _ hh)),
      deleteOne_lookup_ne env root rc n m
        (fun e => h (e ▸ List.mem_cons_self ..))]

theorem nodupB_cons_head (x : String) (t : List String)
    (h : nodupB (x :: t) = true) : t.contains x = false := by
  simp only [nodupB, Bool.and_eq_true, Bool.not_eq_true'] at h
  exact h.1

theorem nodupB_cons_tail (x : String) (t : List String)
    (h : nodupB (x :: t) = true) : nodupB t = true := by
  simp only [nodupB, Bool.and_eq_true] at h
  exact h.2

/-- Updating or erasing the key `n` leaves every other key's lookup alone
(the shape `rc'` takes in `syncChildren`). -/
theorem lookup_update_ne (rc : List (String × Node)) (n m : String) (o : Option Node)
    (h : m ≠ n) :
    lookupC (match o with
      | some x => setC rc n x
      | none => eraseC rc n) m = lookupC rc m := by
  cases o with
  | none => exact lookupC_eraseC_ne rc n m h
  | some x => exact lookupC_setC_ne rc n m x h

mutual

theorem core_done (env : Env) (sp rp : FPath) :
    ∀ s r : Node, s.wfB = true → isDirN (some s) = true → isDirN (some r) = true →
      (folder_syncCore env sp rp s r).outcome = Outcome.done
  | Node.dir sc, Node.dir rc => fun hwf _ _ => by
    simp only [folder_syncCore]
    rcases h1 : (copy_new_modified_files env sp rp sc rc
        ((dircmp sc rc).left_only ++ (dircmp sc rc).diff_files)).ok with _ | _
    · simp [h1]
    · simp only [h1, if_true]
      rcases h2 : (delete_locations env rp
          (copy_new_modified_files env sp rp sc rc
            ((dircmp sc rc).left_only ++ (dircmp sc rc).diff_files)).repl
          (dircmp sc rc).right_only).ok with _ | _
      · simp [h2]
      · simp only [h2, if_true]
        apply kids_done env sp rp (dircmp sc rc).common_dirs sc _
          ((wfB_dir sc).1 hwf).2 ((wfB_dir sc).1 hwf).1
        intro n child hmem hcont
        have hcd := (contains_iff _ n).1 hcont
        obtain ⟨hsdir, hrdir, -⟩ := mem_common_dirs sc rc n hcd
        have hsc : lookupC sc n = some child :=
          lookupC_of_mem sc n child ((wfB_dir sc).1 hwf).1 hmem
        obtain ⟨a, ha⟩ := (isDirN_some_iff _).1 hsdir
        rw [hsc] at ha
        obtain rfl : child = Node.dir a := by injection ha
        refine ⟨⟨a, rfl⟩, ?_⟩
        rw [delete_lookup_not_mem env rp _ _ n (mem_common_dirs_not_right sc rc n hcd),
          copy_lookup_not_mem env sp rp sc _ rc n (by
            intro hmem'
            rcases List.mem_append.1 hmem' with hl | hd
            · exact mem_common_dirs_not_left sc rc n hcd hl
            · exact mem_common_dirs_not_diff sc rc n hcd hd)]
        exact (isDirN_some_iff _).1 hrdir
  | Node.dir _, Node.file _ => fun _ _ h => by simp [isDirN] at h
  | Node.file _, Node.dir _ => fun _ h _ => by simp [isDirN] at h
  | Node.file _, Node.file _ => fun _ h _ => by simp [isDirN] at h

theorem kids_done (env : Env) (sp rp : FPath) (dirNames : List String) :
    ∀ (kids rc : List (String × Node)),
      childrenWf kids = true →
      nodupB (keysC kids) = true →
      (∀ n child, (n, child) ∈ kids → dirNames.contains n = true →
        (∃ a, child = Node.dir a) ∧ (∃ b, lookupC rc n = some (Node.dir b))) →
      (syncChildren env sp rp dirNames kids rc).2.2 = Outcome.done
  | [], rc => fun _ _ _ => by simp [syncChildren]
  | (n, child) :: rest, rc => fun hwf hnd H => by
    simp only [syncChildren]
    by_cases hn : dirNames.contains n
    · simp only [hn, if_true]
      obtain ⟨⟨a, hc⟩, ⟨b, hb⟩⟩ := H n child (List.mem_cons_self ..) hn
      subst hc
      rw [hb]
      have hchildwf : (Node.dir a).wfB = true :=
        childrenWf_mem _ n _ (by
          simpa [childrenWf, Bool.and_eq_true] using hwf : childrenWf ((n, Node.dir a) :: rest) = true)
          (List.mem_cons_self ..)
      have hdone := core_done env (sp ++ [n]) (rp ++ [n]) (Node.dir a) (Node.dir b)
        hchildwf (by simp [isDirN]) (by simp [isDirN])
      simp only [hdone]
      apply kids_done env sp rp dirNames rest _
        (by
          simp only [childrenWf, Bool.and_eq_true] at hwf
          exact hwf.2)
        (nodupB_cons_tail _ _ (by simpa [keysC] using hnd))
      intro m c hmem hcont
      have hm_ne : m ≠ n := by
        intro e
        subst e
        have : m ∈ keysC rest := by
          simp only [keysC]
          exact List.mem_map_of_mem Prod.fst hmem
        have hcontains := nodupB_cons_head m (keysC rest) (by simpa [keysC] using hnd)
        rw [← contains_iff] at this
        rw [this] at hcontains
        cases hcontains
      obtain ⟨hdirc, ⟨b', hb'⟩⟩ := H m c (List.mem_cons_of_mem _ hmem) hcont
      exact ⟨hdirc, ⟨b', by rw [lookup_update_ne _ _ _ _ hm_ne, hb']⟩⟩
    · simp only [hn, Bool.false_eq_true, if_false]
      apply kids_done env sp rp dirNames rest rc
        (by
          simp only [childrenWf, Bool.and_eq_true] at hwf
          exact hwf.2)
        (nodupB_cons_tail _ _ (by simpa [keysC] using hnd))
      intro m c hmem hcont
      exact H m c (List.mem_cons_of_mem _ hmem) hcont

end

theorem syncChildren_join (env : Env) (sp rp : FPath) (dirNames : List String) :
    ∀ (kids rc : List (String × Node)),
      nodupB (keysC kids) = true →
      (∀ n child, (n, child) ∈ kids → dirNames.contains n = true →
        (childRun env sp rp n child (lookupC rc n)).outcome = Outcome.done) →
      (syncChildren env sp rp dirNames kids rc).2.1 =
        ((kids.filter (fun q => dirNames.contains q.1)).map
          (fun q => (childRun env sp rp q.1 q.2 (lookupC rc q.1)).trace)).flatten
  | [], rc => fun _ _ => by simp [syncChildren]
  | (n, child) :: rest, rc => fun hnd H => by
    have hm_ne : ∀ (m : String) (c : Node), (m, c) ∈ rest → m ≠ n := by
      intro m c hmem e
      subst e
      have hmk : m ∈ keysC rest := by
        simp only [keysC]
        exact List.mem_map_of_mem Prod.fst hmem
      have hcontains := nodupB_cons_head m (keysC rest) (by simpa [keysC] using hnd)
      rw [← contains_iff] at hmk
      rw [hmk] at hcontains
      cases hcontains
    simp only [syncChildren, List.filter_cons]
    by_cases hn : dirNames.contains n
    · simp only [hn, if_true]
      have hcr : (match lookupC rc n with
          | none => replicaAbsent env (sp ++ [n]) (rp ++ [n]) child
          | some rchild => folder_syncCore env (sp ++ [n]) (rp ++ [n]) child rchild) =
          childRun env sp rp n child (lookupC rc n) := by
        cases lookupC rc n <;> rfl
      rw [hcr]
      have hdone := H n child (List.mem_cons_self ..) hn
      simp only [hdone]
      have H2 : ∀ m c, (m, c) ∈ rest → dirNames.contains m = true →
          (childRun env sp rp m c (lookupC
            (match (childRun env sp rp n child (lookupC rc n)).replica with
              | some x => setC rc n x
              | none => eraseC rc n) m)).outcome = Outcome.done := by
        intro m c hmem hcont
        rw [lookup_update_ne rc n m _ (hm_ne m c hmem)]
        exact H m c (List.mem_cons_of_mem _ hmem) hcont
      rw [syncChildren_join env sp rp dirNames rest _
        (nodupB_cons_tail _ _ (by simpa [keysC] using hnd)) H2]
      simp only [List.map_cons, List.flatten]
      congr 1
      apply congrArg
      apply List.map_congr_left
      intro q hq
      have hq' := (List.mem_filter.1 hq).1
      rw [lookup_update_ne rc n q.1 _ (hm_ne q.1 q.2 hq')]
    · simp only [hn, Bool.false_eq_true, if_false]
      apply syncChildren_join env sp rp dirNames rest rc
        (nodupB_cons_tail _ _ (by simpa [keysC] using hnd))
      intro m c hmem hcont
      exact H m c (List.mem_cons_of_mem _ hmem) hcont

/-- C7: when reconcile and purge of a level both succeed, the level's trace is
the reconcile trace, then the purge trace, then the concatenation of the
traces of one independent recursive call per common subdirectory — every
common subdirectory is recursed into, and a failure inside one subtree's
recursion (all of whose failures are caught per entry, so its call returns
normally) never prevents the sibling calls from appearing in full. -/
theorem sibling_subtrees_independent (env : Env) (sp rp : FPath)
    (sc rc : List (String × Node)) (rec1 del : StepRes)
    (hwf : (Node.dir sc).wfB = true)
    (hrec : rec1 = copy_new_modified_files env sp rp sc rc
      ((dircmp sc rc).left_only ++ (dircmp sc rc).diff_files))
    (hdel : del = delete_locations env rp rec1.repl (dircmp sc rc).right_only)
    (h1 : rec1.ok = true) (h2 : del.ok = true) :
    (folder_syncCore env sp rp (Node.dir sc) (Node.dir rc)).trace =
      rec1.trace ++ del.trace ++
        ((sc.filter (fun q => (dircmp sc rc).common_dirs.contains q.1)).map
          (fun q => (childRun env sp rp q.1 q.2 (lookupC rc q.1)).trace)).flatten ∧
    (∀ n child, (n, child) ∈ sc → (dircmp sc rc).common_dirs.contains n = true →
      ∃ pre post, (folder_syncCore env sp rp (Node.dir sc) (Node.dir rc)).trace =
        pre ++ (childRun env sp rp n child (lookupC rc n)).trace ++ post) := by
  subst hrec
  subst hdel
  have hstable : ∀ m : String, m ∈ (dircmp sc rc).common_dirs →
      lookupC (delete_locations env rp
        (copy_new_modified_files env sp rp sc rc
          ((dircmp sc rc).left_only ++ (dircmp sc rc).diff_files)).repl
        (dircmp sc rc).right_only).repl m = lookupC rc m := by
    intro m hm
    rw [delete_lookup_not_mem env rp _ _ m (mem_common_dirs_not_right sc rc m hm),
      copy_lookup_not_mem env sp rp sc _ rc m (by
        intro hmem'
        rcases List.mem_append.1 hmem' with hl | hd
        · exact mem_common_dirs_not_left sc rc m hm hl
        · exact mem_common_dirs_not_diff sc rc m hm hd)]
  have hmain : (folder_syncCore env sp rp (Node.dir sc) (Node.dir rc)).trace =
      (copy_new_modified_files env sp rp sc rc
        ((dircmp sc rc).left_only ++ (dircmp sc rc).diff_files)).trace ++
      (delete_locations env rp
        (copy_new_modified_files env sp rp sc rc
          ((dircmp sc rc).left_only ++ (dircmp sc rc).diff_files)).repl
        (dircmp sc rc).right_only).trace ++
      ((sc.filter (fun q => (dircmp sc rc).common_dirs.contains q.1)).map
        (fun q => (childRun env sp rp q.1 q.2 (lookupC rc q.1)).trace)).flatten := by
    simp only [folder_syncCore, h1, h2, if_true]
    congr 1
    rw [syncChildren_join env sp rp (dircmp sc rc).common_dirs sc _
      ((wfB_dir sc).1 hwf).1]
    · apply congrArg
      apply List.map_congr_left
      intro q hq
      have hcont := (List.mem_filter.1 hq).2
      rw [hstable q.1 ((contains_iff _ q.1).1 hcont)]
    · intro n child hmem hcont
      have hcd := (contains_iff _ n).1 hcont
      rw [hstable n hcd]
      obtain ⟨hsdir, hrdir, -⟩ := mem_common_dirs sc rc n hcd
      obtain ⟨b, hb⟩ := (isDirN_some_iff _).1 hrdir
      rw [hb]
      have hsc : lookupC sc n = some child :=
        lookupC_of_mem sc n child ((wfB_dir sc).1 hwf).1 hmem
      obtain ⟨a, ha⟩ := (isDirN_some_iff _).1 hsdir
      rw [hsc] at ha
      obtain rfl : child = Node.dir a := by injection ha
      exact core_done env (sp ++ [n]) (rp ++ [n]) (Node.dir a) (Node.dir b)
        (childrenWf_mem sc n _ ((wfB_dir sc).1 hwf).2 hmem)
        (by simp [isDirN]) (by simp [isDirN])
  refine ⟨hmain, ?_⟩
  intro n child hmem hcont
  have hfil : (n, child) ∈ sc.filter (fun q => (dircmp sc rc).common_dirs.contains q.1) :=
    List.mem_filter.2 ⟨hmem, hcont⟩
  obtain ⟨l1, l2, hsplit⟩ := List.append_of_mem hfil
  refine ⟨(copy_new_modified_files env sp rp sc rc
      ((dircmp sc rc).left_only ++ (dircmp sc rc).diff_files)).trace ++
    (delete_locations env rp
      (copy_new_modified_files env sp rp sc rc
        ((dircmp sc rc).left_only ++ (dircmp sc rc).diff_files)).repl
      (dircmp sc rc).right_only).trace ++
    ((l1.map (fun q => (childRun env sp rp q.1 q.2 (lookupC rc q.1)).trace)).flatten),
    (l2.map (fun q => (childRun env sp rp q.1 q.2 (lookupC rc q.1)).trace)).flatten, ?_⟩
  rw [hmain, hsplit]
  simp [List.map_append, List.flatten_append, List.append_assoc]

/-- Witness for C7: two sibling subdirectories `d1`, `d2`; the copy inside
`d1` fails (oracle), yet `d2`'s recursive trace still appears in the
level's trace. -/
theorem sibling_subtrees_independent_witness :
    ∃ pre post,
      (folder_syncCore ⟨fun p => decide (p = ["r", "d1", "x"]), fun _ => false⟩
        ["s"] ["r"]
        (Node.dir [("d1", Node.dir [("x", Node.file 0)]),
          ("d2", Node.dir [("y", Node.file 1)])])
        (Node.dir [("d1", Node.dir []), ("d2", Node.dir [])])).trace =
      pre ++ (childRun ⟨fun p => decide (p = ["r", "d1", "x"]), fun _ => false⟩
        ["s"] ["r"] "d2" (Node.dir [("y", Node.file 1)])
        (lookupC [("d1", Node.dir []), ("d2", Node.dir [])] "d2")).trace ++ post :=
  (sibling_subtrees_independent
    ⟨fun p => decide (p = ["r", "d1", "x"]), fun _ => false⟩ ["s"] ["r"]
    [("d1", Node.dir [("x", Node.file 0)]), ("d2", Node.dir [("y", Node.file 1)])]
    [("d1", Node.dir []), ("d2", Node.dir [])] _ _ (by decide) rfl rfl
    (by decide) (by decide)).2 "d2" (Node.dir [("y", Node.file 1)])
    (by decide) (by decide)

/-! ### Convergence and idempotence infrastructure -/

theorem setC_append_of_not_mem (ch : List (String × Node)) (n : String) (v : Node)
    (h : n ∉ keysC ch) : setC ch n v = ch ++ [(n, v)] := by
  induction ch with
  | nil => simp [setC]
  | cons hd t ih =>
    obtain ⟨k, w⟩ := hd
    simp only [keysC, List.map_cons, List.mem_cons] at h
    push_neg at h
    have hk : ¬k = n := fun e => h.1 e.symm
    simp [setC, hk, ih (by simpa [keysC] using h.2)]

mutual

theorem copytreeNode_fresh : ∀ s : Node, s.wfB = true → copytreeNode s none = s
  | Node.file _ => fun _ => rfl
  | Node.dir sc => fun h => by
    simp only [copytreeNode]
    rw [copytreeList_fresh sc [] ((wfB_dir sc).1 h).2 ((wfB_dir sc).1 h).1
      (by simp [keysC])]
    simp

theorem copytreeList_fresh : ∀ sc : List (String × Node), ∀ acc : List (String × Node),
      childrenWf sc = true → nodupB (keysC sc) = true →
      (∀ k ∈ keysC sc, k ∉ keysC acc) →
      copytreeList sc acc = acc ++ sc
  | [], acc => fun _ _ _ => by simp [copytreeList]
  | (n, c) :: rest, acc => fun hwf hnd hdisj => by
    simp only [copytreeList]
    have hlook : lookupC acc n = none := by
      rw [lookupC_eq_none_iff]
      exact hdisj n (by simp [keysC])
    have hcwf : c.wfB = true := by
      simp only [childrenWf, Bool.and_eq_true] at hwf
      exact hwf.1
    rw [hlook, copytreeNode_fresh c hcwf,
      setC_append_of_not_mem acc n c (hdisj n (by simp [keysC]))]
    rw [copytreeList_fresh rest (acc ++ [(n, c)])
      (by
        simp only [childrenWf, Bool.and_eq_true] at hwf
        exact hwf.2)
      (nodupB_cons_tail _ _ (by simpa [keysC] using hnd))
      (by
        intro k hk hmem
        have hkeys : keysC (acc ++ [(n, c)]) = keysC acc ++ [n] := by simp [keysC]
        rw [hkeys, List.mem_append, List.mem_singleton] at hmem
        rcases hmem with h' | h'
        · exact hdisj k (List.mem_cons_of_mem n hk) h'
        · subst h'
          have hcontains := nodupB_cons_head k (keysC rest)
            (by simpa [keysC] using hnd)
          rw [← contains_iff] at hk
          rw [hk] at hcontains
          cases hcontains)]
    simp

end

theorem copyOne_nodup (env : Env) (sp rp : FPath) (sc rc : List (String × Node))
    (n : String) (h : nodupB (keysC rc) = true) :
    nodupB (keysC (copyOne env sp rp sc rc n).1) = true := by
  unfold copyOne
  rcases lookupC sc n with _ | ⟨s | dch⟩ <;> simp [h] <;> split <;>
    simp [h, nodup_keysC_setC _ _ _ h]

theorem copy_nodup (env : Env) (sp rp : FPath) (sc : List (String × Node)) :
    ∀ (l : List String) (rc : List (String × Node)),
      nodupB (keysC rc) = true →
      nodupB (keysC (copy_new_modified_files env sp rp sc rc l).repl) = true
  | [], rc => fun h => by simpa [copy_new_modified_files] using h
  | n :: rest, rc => fun h => by
    simp only [copy_new_modified_files]
    exact copy_nodup env sp rp sc rest _ (copyOne_nodup env sp rp sc rc n h)

theorem deleteOne_nodup (env : Env) (root : FPath) (rc : List (String × Node))
    (n : String) (h : nodupB (keysC rc) = true) :
    nodupB (keysC (deleteOne env root rc n).1) = true := by
  unfold deleteOne
  rcases lookupC rc n with _ | ⟨s | dch⟩ <;> simp [h] <;> split <;>
    simp [h, nodup_keysC_eraseC _ _ h]

theorem delete_nodup (env : Env) (root : FPath) :
    ∀ (l : List String) (rc : List (String × Node)),
      nodupB (keysC rc) = true →
      nodupB (keysC (delete_locations env root rc l).repl) = true
  | [], rc => fun h => by simpa [delete_locations] using h
  | n :: rest, rc => fun h => by
    simp only [delete_locations]
    exact delete_nodup env root rest _ (deleteOne_nodup env root rc n h)

theorem copyOne_char_success (env : Env) (sp rp : FPath) (sc rc : List (String × Node))
    (n : String) (h : (copyOne env sp rp sc rc n).2.2 = true) :
    ∃ s0, lookupC sc n = some s0 ∧
      lookupC (copyOne env sp rp sc rc n).1 n =
        some (match s0 with
          | Node.file sig => Node.file sig
          | Node.dir dch => copytreeNode (Node.dir dch) (lookupC rc n)) := by
  revert h
  unfold copyOne
  rcases hs : lookupC sc n with _ | ⟨s | dch⟩ <;> simp
  · split
    · simp
    · intro
      exact lookupC_setC_self rc n (Node.file s)
  · split
    · simp
    · intro
      exact lookupC_setC_self rc n (copytreeNode (Node.dir dch) (lookupC rc n))

theorem copy_char (env : Env) (sp rp : FPath) (sc : List (String × Node)) :
    ∀ (l : List String) (rc : List (String × Node)) (m : String),
      nodupB l = true →
      failFree (copy_new_modified_files env sp rp sc rc l).trace = true →
      m ∈ l →
      ∃ s0, lookupC sc m = some s0 ∧
        lookupC (copy_new_modified_files env sp rp sc rc l).repl m =
          some (match s0 with
            | Node.file sig => Node.file sig
            | Node.dir dch => copytreeNode (Node.dir dch) (lookupC rc m))
  | [], rc, m => fun _ _ hm => by simp at hm
  | n :: rest, rc, m => fun hnd hff hm => by
    simp only [copy_new_modified_files, failFree_append, Bool.and_eq_true] at hff ⊢
    have hok : (copyOne env sp rp sc rc n).2.2 = true :=
      (copyOne_ok_iff env sp rp sc rc n).2 hff.1
    rcases List.mem_cons.1 hm with rfl | hm'
    · obtain ⟨s0, hs0, hlook⟩ := copyOne_char_success env sp rp sc rc m hok
      refine ⟨s0, hs0, ?_⟩
      have hnot : m ∉ rest := by
        intro hcontra
        have hcontains := nodupB_cons_head m rest hnd
        rw [← contains_iff] at hcontra
        rw [hcontra] at hcontains
        cases hcontains
      rw [copy_lookup_not_mem env sp rp sc rest _ m hnot]
      exact hlook
    · have hm_ne : m ≠ n := by
        intro e
        subst e
        have hcontains := nodupB_cons_head m rest hnd
        rw [← contains_iff] at hm'
        rw [hm'] at hcontains
        cases hcontains
      obtain ⟨s0, hs0, hlook⟩ := copy_char env sp rp sc rest
        (copyOne env sp rp sc rc n).1 m (nodupB_cons_tail _ _ hnd) hff.2 hm'
      refine ⟨s0, hs0, ?_⟩
      rw [hlook, copyOne_lookup_ne env sp rp sc rc n m hm_ne]

theorem eraseC_none_mono (rc : List (String × Node)) (k m : String)
    (h : lookupC rc m = none) : lookupC (eraseC rc k) m = none := by
  rw [lookupC_eq_none_iff] at *
  intro hm
  exact h (mem_keysC_eraseC rc k m hm)

theorem deleteOne_none_mono (env : Env) (root : FPath) (rc : List (String × Node))
    (n m : String) (h : lookupC rc m = none) :
    lookupC (deleteOne env root rc n).1 m = none := by
  unfold deleteOne
  rcases lookupC rc n with _ | ⟨s | dch⟩ <;> simp [h] <;> split <;>
    simp [h, eraseC_none_mono _ _ _ h]

theorem delete_none_mono (env : Env) (root : FPath) :
    ∀ (l : List String) (rc : List (String × Node)) (m : String),
      lookupC rc m = none →
      lookupC (delete_locations env root rc l).repl m = none
  | [], rc, m => fun h => by simpa [delete_locations] using h
  | n :: rest, rc, m => fun h => by
    simp only [delete_locations]
    exact delete_none_mono env root rest _ m (deleteOne_none_mono env root rc n m h)

theorem deleteOne_char_success (env : Env) (root : FPath) (rc : List (String × Node))
    (n : String) (hnd : nodupB (keysC rc) = true)
    (h : (deleteOne env root rc n).2.2 = true) :
    lookupC (deleteOne env root rc n).1 n = none := by
  revert h
  unfold deleteOne
  rcases lookupC rc n with _ | ⟨s | dch⟩ <;> simp <;> split <;>
    simp [lookupC_eraseC_self _ _ hnd]

theorem delete_char_mem (env : Env) (root : FPath) :
    ∀ (l : List String) (rc : List (String × Node)) (m : String),
      nodupB (keysC rc) = true →
      failFree (delete_locations env root rc l).trace = true →
      m ∈ l →
      lookupC (delete_locations env root rc l).repl m = none
  | [], rc, m => fun _ _ hm => by simp at hm
  | n :: rest, rc, m => fun hnd hff hm => by
    simp only [delete_locations, failFree_append, Bool.and_eq_true] at hff ⊢
    have hok : (deleteOne env root rc n).2.2 = true :=
      (deleteOne_ok_iff env root rc n).2 hff.1
    rcases List.mem_cons.1 hm with rfl | hm'
    · exact delete_none_mono env root rest _ m
        (deleteOne_char_success env root rc m hnd hok)
    · exact delete_char_mem env root rest _ m
        (deleteOne_nodup env root rc n hnd) hff.2 hm'

mutual

theorem synced_refl_dir : ∀ s : Node, s.wfB = true → isDirN (some s) = true →
      synced s s = true
  | Node.file _ => fun _ h => by simp [isDirN] at h
  | Node.dir ch => fun hwf _ => by
    simp only [synced, Bool.and_eq_true]
    refine ⟨⟨⟨?_, ?_⟩, ?_⟩, ?_⟩
    · rw [List.isEmpty_iff]
      simp only [dircmp]
      rw [List.filter_eq_nil_iff]
      intro m hm
      rw [(contains_iff _ m).2 hm]
      simp
    · rw [List.isEmpty_iff]
      simp only [dircmp]
      rw [List.filter_eq_nil_iff]
      intro m hm
      rw [(contains_iff _ m).2 hm]
      simp
    · rw [List.isEmpty_iff]
      simp only [dircmp]
      rw [List.filter_eq_nil_iff]
      intro m _
      simp
    · apply syncedKids_refl (dircmp ch ch).common_dirs ch ch ((wfB_dir ch).1 hwf).2
      intro n c hmem hcont
      have hl : lookupC ch n = some c :=
        lookupC_of_mem ch n c ((wfB_dir ch).1 hwf).1 hmem
      refine ⟨hl, ?_⟩
      obtain ⟨hsdir, -, -⟩ := mem_common_dirs ch ch n ((contains_iff _ n).1 hcont)
      rw [hl] at hsdir
      exact hsdir

theorem syncedKids_refl (dirNames : List String) (full : List (String × Node)) :
    ∀ kids : List (String × Node),
      childrenWf kids = true →
      (∀ n c, (n, c) ∈ kids → dirNames.contains n = true →
        lookupC full n = some c ∧ isDirN (some c) = true) →
      syncedKids dirNames full kids = true
  | [] => fun _ _ => rfl
  | (n, c) :: rest => fun hwf H => by
    simp only [syncedKids, Bool.and_eq_true]
    constructor
    · by_cases hn : dirNames.contains n
      · obtain ⟨hl, hd⟩ := H n c (List.mem_cons_self ..) hn
        simp only [hn, if_true, hl]
        exact synced_refl_dir c (by
          simp only [childrenWf, Bool.and_eq_true] at hwf
          exact hwf.1) hd
      · rw [Bool.not_eq_true] at hn
        simp only [hn, Bool.false_eq_true, if_false]
    · apply syncedKids_refl dirNames full rest (by
        simp only [childrenWf, Bool.and_eq_true] at hwf
        exact hwf.2)
      intro m cm hmem hcont
      exact H m cm (List.mem_cons_of_mem _ hmem) hcont

end

theorem synced_dir_parts (sc rc : List (String × Node))
    (h : synced (Node.dir sc) (Node.dir rc) = true) :
    (dircmp sc rc).left_only = [] ∧ (dircmp sc rc).right_only = [] ∧
      (dircmp sc rc).diff_files = [] ∧
      syncedKids (dircmp sc rc).common_dirs rc sc = true := by
  simp only [synced, Bool.and_eq_true, List.isEmpty_iff] at h
  exact ⟨h.1.1.1, h.1.1.2, h.1.2, h.2⟩

theorem syncedKids_spec (dirNames : List String) (rc : List (String × Node)) :
    ∀ kids : List (String × Node), syncedKids dirNames rc kids = true →
      ∀ n c, (n, c) ∈ kids → dirNames.contains n = true →
        ∃ b, lookupC rc n = some b ∧ synced c b = true
  | [] => fun _ n c hm => by simp at hm
  | (k, ck) :: rest => fun h n c hm hcont => by
    simp only [syncedKids, Bool.and_eq_true] at h
    rcases List.mem_cons.1 hm with h' | h'
    · obtain ⟨rfl, rfl⟩ : n = k ∧ c = ck := by simpa [Prod.mk.injEq] using h'
      have h1 := h.1
      rw [hcont] at h1
      simp only [if_true] at h1
      rcases hl : lookupC rc n with _ | b
      · rw [hl] at h1
        cases h1
      · rw [hl] at h1
        exact ⟨b, rfl, h1⟩
    · exact syncedKids_spec dirNames rc rest h.2 n c h' hcont

theorem noIgnoredKids_spec :
    ∀ ch : List (String × Node), noIgnoredKids ch = true →
      ∀ n c, (n, c) ∈ ch → IGNORES.contains n = false ∧ noIgnoredB c = true
  | [] => fun _ n c hm => by simp at hm
  | (k, ck) :: rest => fun h n c hm => by
    simp only [noIgnoredKids, Bool.and_eq_true] at h
    rcases List.mem_cons.1 hm with h' | h'
    · obtain ⟨rfl, rfl⟩ : n = k ∧ c = ck := by simpa [Prod.mk.injEq] using h'
      refine ⟨?_, h.1.2⟩
      have := h.1.1
      rw [Bool.not_eq_true'] at this
      exact this
    · exact noIgnoredKids_spec rest h.2 n c h'

theorem noClashKids_spec (rc : List (String × Node)) :
    ∀ sc : List (String × Node), noClashKids rc sc = true →
      ∀ n c, (n, c) ∈ sc → ∀ b, lookupC rc n = some b →
        (∃ x y, c = Node.file x ∧ b = Node.file y) ∨
        (∃ a d, c = Node.dir a ∧ b = Node.dir d ∧ noClashB c b = true)
  | [] => fun _ n c hm => by simp at hm
  | (k, ck) :: rest => fun h n c hm b hb => by
    simp only [noClashKids, Bool.and_eq_true] at h
    rcases List.mem_cons.1 hm with h' | h'
    · obtain ⟨rfl, rfl⟩ : n = k ∧ c = ck := by simpa [Prod.mk.injEq] using h'
      have h1 := h.1
      rw [hb] at h1
      rcases c with x | a <;> rcases b with y | d
      · exact Or.inl ⟨x, y, rfl, rfl⟩
      · cases h1
      · cases h1
      · exact Or.inr ⟨a, d, rfl, rfl, h1⟩
    · exact noClashKids_spec rc rest h.2 n c h' b hb

mutual

theorem synced_noop_core (env : Env) (sp rp : FPath) :
    ∀ s r : Node, synced s r = true →
      folder_syncCore env sp rp s r = ⟨some r, [], Outcome.done⟩
  | Node.dir sc, Node.dir rc => fun h => by
    obtain ⟨hl, hr, hd, hk⟩ := synced_dir_parts sc rc h
    have hrec : copy_new_modified_files env sp rp sc rc
        ((dircmp sc rc).left_only ++ (dircmp sc rc).diff_files) = ⟨rc, [], true⟩ := by
      rw [hl, hd]
      rfl
    have hdel : delete_locations env rp rc (dircmp sc rc).right_only = ⟨rc, [], true⟩ := by
      rw [hr]
      rfl
    simp only [folder_syncCore, hrec, hdel, if_true]
    rw [synced_noop_kids env sp rp (dircmp sc rc).common_dirs sc rc
      (syncedKids_spec (dircmp sc rc).common_dirs rc sc hk)]
    rfl
  | Node.file _, Node.file _ => fun h => by simp [synced] at h
  | Node.file _, Node.dir _ => fun h => by simp [synced] at h
  | Node.dir _, Node.file _ => fun h => by simp [synced] at h

theorem synced_noop_kids (env : Env) (sp rp : FPath) (dirNames : List String) :
    ∀ (kids rc : List (String × Node)),
      (∀ n c, (n, c) ∈ kids → dirNames.contains n = true →
        ∃ b, lookupC rc n = some b ∧ synced c b = true) →
      syncChildren env sp rp dirNames kids rc = (rc, [], Outcome.done)
  | [], rc => fun _ => rfl
  | (n, child) :: rest, rc => fun H => by
    simp only [syncChildren]
    by_cases hn : dirNames.contains n
    · simp only [hn, if_true]
      rcases hrc : lookupC rc n with _ | b
      · exfalso
        obtain ⟨b', hb', -⟩ := H n child (List.mem_cons_self ..) hn
        rw [hrc] at hb'
        cases hb'
      · obtain ⟨b2, hb2, hs⟩ := H n child (List.mem_cons_self ..) hn
        rw [hrc] at hb2
        injection hb2 with he
        subst he
        simp only [hrc, synced_noop_core env (sp ++ [n]) (rp ++ [n]) child b hs,
          setC_self rc n b hrc, List.nil_append, List.append_nil,
          synced_noop_kids env sp rp dirNames rest rc
            (fun m c hm hc => H m c (List.mem_cons_of_mem _ hm) hc)]
    · simp only [hn, Bool.false_eq_true, if_false]
      exact synced_noop_kids env sp rp dirNames rest rc
        (fun m c hm hc => H m c (List.mem_cons_of_mem _ hm) hc)

end

theorem mem_childPaths (n : String) (q : FPath) (v : Option Nat) :
    ∀ ch : List (String × Node),
      ((n :: q, v) ∈ childPaths ch ↔ ∃ c, (n, c) ∈ ch ∧ (q, v) ∈ Node.paths c)
  | [] => by simp [childPaths]
  | (k, c0) :: rest => by
    simp only [childPaths, List.mem_append, mem_childPaths n q v rest]
    constructor
    · intro h
      rcases h with h | ⟨c, hc, hm⟩
      · obtain ⟨pv, hpv, heq⟩ := List.mem_map.1 h
        obtain ⟨h1, h2⟩ : k :: pv.1 = n :: q ∧ pv.2 = v := by
          simpa [Prod.ext_iff] using heq
        injection h1 with hk hq
        subst hk
        refine ⟨c0, List.mem_cons_self .., ?_⟩
        have : pv = (q, v) := by
          obtain ⟨p1, p2⟩ := pv
          simp only at hq h2
          simp [hq, h2]
        rw [← this]
        exact hpv
      · exact ⟨c, List.mem_cons_of_mem _ hc, hm⟩
    · intro ⟨c, hc, hm⟩
      rcases List.mem_cons.1 hc with h' | h'
      · obtain ⟨rfl, rfl⟩ : n = k ∧ c = c0 := by simpa [Prod.mk.injEq] using h'
        exact Or.inl (List.mem_map.2 ⟨(q, v), hm, rfl⟩)
      · exact Or.inr ⟨c, h', hm⟩

theorem nil_not_mem_childPaths (v : Option Nat) :
    ∀ ch : List (String × Node), (([] : FPath), v) ∉ childPaths ch
  | [] => by simp [childPaths]
  | (k, c0) :: rest => by
    simp only [childPaths, List.mem_append]
    intro h
    rcases h with h | h
    · obtain ⟨pv, -, heq⟩ := List.mem_map.1 h
      have : k :: pv.1 = [] := congrArg Prod.fst heq
      cases this
    · exact nil_not_mem_childPaths v rest h

theorem mem_paths_dir (ch : List (String × Node)) (p : FPath) (v : Option Nat) :
    (p, v) ∈ Node.paths (Node.dir ch) ↔
      (p = [] ∧ v = none) ∨
        ∃ n q c, p = n :: q ∧ (n, c) ∈ ch ∧ (q, v) ∈ Node.paths c := by
  simp only [Node.paths, List.mem_cons]
  constructor
  · intro h
    rcases h with h | h
    · obtain ⟨h1, h2⟩ : p = [] ∧ v = none := by simpa [Prod.ext_iff] using h
      exact Or.inl ⟨h1, h2⟩
    · rcases p with _ | ⟨n, q⟩
      · exact absurd h (nil_not_mem_childPaths v ch)
      · obtain ⟨c, hc, hm⟩ := (mem_childPaths n q v ch).1 h
        exact Or.inr ⟨n, q, c, rfl, hc, hm⟩
  · intro h
    rcases h with ⟨rfl, rfl⟩ | ⟨n, q, c, rfl, hc, hm⟩
    · exact Or.inl rfl
    · exact Or.inr ((mem_childPaths n q v ch).2 ⟨c, hc, hm⟩)

/-- Two directories whose per-name lookups are pointwise path-equivalent have
the same path sets. -/
theorem paths_iff_of_lookup (sc rcf : List (String × Node))
    (hnds : nodupB (keysC sc) = true) (hndr : nodupB (keysC rcf) = true)
    (h : ∀ m, (lookupC rcf m = none ∧ lookupC sc m = none) ∨
        (∃ cf cs, lookupC rcf m = some cf ∧ lookupC sc m = some cs ∧
          ∀ qv : FPath × Option Nat, qv ∈ Node.paths cf ↔ qv ∈ Node.paths cs)) :
    ∀ pv : FPath × Option Nat,
      pv ∈ Node.paths (Node.dir rcf) ↔ pv ∈ Node.paths (Node.dir sc) := by
  intro ⟨p, v⟩
  rw [mem_paths_dir, mem_paths_dir]
  constructor
  · intro hmem
    rcases hmem with h0 | ⟨n, q, c, rfl, hc, hm⟩
    · exact Or.inl h0
    · rcases h n with ⟨hna, -⟩ | ⟨cf, cs, hcf, hcs, hiff⟩
      · rw [lookupC_of_mem rcf n c hndr hc] at hna
        cases hna
      · have : c = cf := by
          have := lookupC_of_mem rcf n c hndr hc
          rw [this] at hcf
          injection hcf
        subst this
        exact Or.inr ⟨n, q, cs, rfl, mem_of_lookupC sc n cs hcs, (hiff (q, v)).1 hm⟩
  · intro hmem
    rcases hmem with h0 | ⟨n, q, c, rfl, hc, hm⟩
    · exact Or.inl h0
    · rcases h n with ⟨-, hna⟩ | ⟨cf, cs, hcf, hcs, hiff⟩
      · rw [lookupC_of_mem sc n c hnds hc] at hna
        cases hna
      · have : c = cs := by
          have := lookupC_of_mem sc n c hnds hc
          rw [this] at hcs
          injection hcs
        subst this
        exact Or.inr ⟨n, q, cf, rfl, mem_of_lookupC rcf n cf hcf, (hiff (q, v)).2 hm⟩

theorem mem_ln_iff (sc : List (String × Node)) (m : String) :
    m ∈ (keysC sc).filter (fun n => !IGNORES.contains n) ↔
      m ∈ keysC sc ∧ IGNORES.contains m = false := by
  rw [List.mem_filter]
  simp [Bool.not_eq_true']

theorem mem_left_only_iff (sc rc : List (String × Node)) (m : String) :
    m ∈ (dircmp sc rc).left_only ↔
      m ∈ keysC sc ∧ IGNORES.contains m = false ∧ m ∉ keysC rc := by
  simp only [dircmp]
  rw [List.mem_filter, mem_ln_iff]
  constructor
  · rintro ⟨⟨h1, h2⟩, h3⟩
    refine ⟨h1, h2, fun hk => ?_⟩
    have hmem : m ∈ (keysC rc).filter (fun n => !IGNORES.contains n) :=
      (mem_ln_iff rc m).2 ⟨hk, h2⟩
    rw [(contains_iff _ m).2 hmem] at h3
    simp at h3
  · rintro ⟨h1, h2, h3⟩
    refine ⟨⟨h1, h2⟩, ?_⟩
    rw [Bool.not_eq_true']
    rw [Bool.eq_false_iff]
    intro hc
    exact h3 ((mem_ln_iff rc m).1 ((contains_iff _ m).1 hc)).1

theorem mem_right_only_iff (sc rc : List (String × Node)) (m : String) :
    m ∈ (dircmp sc rc).right_only ↔
      m ∈ keysC rc ∧ IGNORES.contains m = false ∧ m ∉ keysC sc := by
  simp only [dircmp]
  rw [List.mem_filter, mem_ln_iff]
  constructor
  · rintro ⟨⟨h1, h2⟩, h3⟩
    refine ⟨h1, h2, fun hk => ?_⟩
    have hmem : m ∈ (keysC sc).filter (fun n => !IGNORES.contains n) :=
      (mem_ln_iff sc m).2 ⟨hk, h2⟩
    rw [(contains_iff _ m).2 hmem] at h3
    simp at h3
  · rintro ⟨h1, h2, h3⟩
    refine ⟨⟨h1, h2⟩, ?_⟩
    rw [Bool.not_eq_true']
    rw [Bool.eq_false_iff]
    intro hc
    exact h3 ((mem_ln_iff sc m).1 ((contains_iff _ m).1 hc)).1

theorem mem_common_iff (sc rc : List (String × Node)) (m : String) :
    m ∈ (dircmp sc rc).common ↔
      m ∈ keysC sc ∧ m ∈ keysC rc ∧ IGNORES.contains m = false := by
  simp only [dircmp]
  rw [List.mem_filter, mem_ln_iff]
  constructor
  · rintro ⟨⟨h1, h2⟩, h3⟩
    exact ⟨h1, ((mem_ln_iff rc m).1 ((contains_iff _ m).1 h3)).1, h2⟩
  · rintro ⟨h1, h2, h3⟩
    exact ⟨⟨h1, h3⟩, (contains_iff _ m).2 ((mem_ln_iff rc m).2 ⟨h2, h3⟩)⟩

theorem mem_common_dirs_iff (sc rc : List (String × Node)) (m : String) :
    m ∈ (dircmp sc rc).common_dirs ↔
      m ∈ (dircmp sc rc).common ∧
        isDirN (lookupC sc m) = true ∧ isDirN (lookupC rc m) = true := by
  constructor
  · intro h
    obtain ⟨h1, h2, h3⟩ := mem_common_dirs sc rc m h
    exact ⟨h3, h1, h2⟩
  · rintro ⟨h1, h2, h3⟩
    simp only [dircmp] at h1 ⊢
    exact List.mem_filter.2 ⟨h1, by rw [Bool.and_eq_true]; exact ⟨h2, h3⟩⟩

theorem mem_common_files_iff (sc rc : List (String × Node)) (m : String) :
    m ∈ (dircmp sc rc).common_files ↔
      m ∈ (dircmp sc rc).common ∧
        isFileN (lookupC sc m) = true ∧ isFileN (lookupC rc m) = true := by
  simp only [dircmp]
  rw [List.mem_filter, Bool.and_eq_true]

theorem mem_diff_files_iff (sc rc : List (String × Node)) (m : String) :
    m ∈ (dircmp sc rc).diff_files ↔
      m ∈ (dircmp sc rc).common_files ∧ lookupC sc m ≠ lookupC rc m := by
  simp only [dircmp]
  rw [List.mem_filter]
  simp

theorem same_file_eq (sc rc : List (String × Node)) (m : String)
    (h1 : m ∈ (dircmp sc rc).common_files) (h2 : m ∉ (dircmp sc rc).diff_files) :
    lookupC sc m = lookupC rc m := by
  by_contra hne
  exact h2 ((mem_diff_files_iff sc rc m).2 ⟨h1, hne⟩)

theorem nodup_L (sc rc : List (String × Node)) (h : nodupB (keysC sc) = true) :
    nodupB ((dircmp sc rc).left_only ++ (dircmp sc rc).diff_files) = true := by
  rw [nodupB_iff] at *
  simp only [dircmp]
  apply List.Nodup.append
  · exact (h.filter _).filter _
  · exact (((h.filter _).filter _).filter _).filter _
  · intro a ha hd
    have h1 := (List.mem_filter.1 ha).2
    have h2 := (List.mem_filter.1 (List.mem_filter.1 (List.mem_filter.1 hd).1).1).2
    rw [h2] at h1
    simp at h1

theorem update_nodup (rc : List (String × Node)) (n : String) (o : Option Node)
    (h : nodupB (keysC rc) = true) :
    nodupB (keysC (match o with
      | some x => setC rc n x
      | none => eraseC rc n)) = true := by
  cases o with
  | none => exact nodup_keysC_eraseC rc n h
  | some x => exact nodup_keysC_setC rc n x h

theorem syncChildren_nodup (env : Env) (sp rp : FPath) (dirNames : List String) :
    ∀ kids rc : List (String × Node), nodupB (keysC rc) = true →
      nodupB (keysC (syncChildren env sp rp dirNames kids rc).1) = true
  | [], rc => fun h => by simpa [syncChildren] using h
  | (n, child) :: rest, rc => fun h => by
    simp only [syncChildren]
    by_cases hn : dirNames.contains n
    · simp only [hn, if_true]
      rcases hrc : lookupC rc n with _ | rchild
      · simp only [hrc]
        rcases ho : (replicaAbsent env (sp ++ [n]) (rp ++ [n]) child).outcome with _ | _ | _ <;>
          simp only [ho]
        · exact syncChildren_nodup env sp rp dirNames rest _ (update_nodup rc n _ h)
        · exact update_nodup rc n _ h
        · exact update_nodup rc n _ h
      · simp only [hrc]
        rcases ho : (folder_syncCore env (sp ++ [n]) (rp ++ [n]) child rchild).outcome with _ | _ | _ <;>
          simp only [ho]
        · exact syncChildren_nodup env sp rp dirNames rest _ (update_nodup rc n _ h)
        · exact update_nodup rc n _ h
        · exact update_nodup rc n _ h
    · simp only [hn, Bool.false_eq_true, if_false]
      exact syncChildren_nodup env sp rp dirNames rest rc h

theorem exists_lookupC_of_mem_keys (ch : List (String × Node)) (m : String)
    (h : m ∈ keysC ch) : ∃ c, lookupC ch m = some c := by
  rcases hl : lookupC ch m with _ | c
  · rw [lookupC_eq_none_iff] at hl
    exact absurd h hl
  · exact ⟨c, rfl⟩

theorem exists_of_mem_keysC (ch : List (String × Node)) (m : String)
    (h : m ∈ keysC ch) : ∃ c, (m, c) ∈ ch := by
  obtain ⟨c, hc⟩ := exists_lookupC_of_mem_keys ch m h
  exact ⟨c, mem_of_lookupC ch m c hc⟩

theorem syncedKids_of_spec (dirNames : List String) (full : List (String × Node)) :
    ∀ kids : List (String × Node),
      (∀ n c, (n, c) ∈ kids → dirNames.contains n = true →
        ∃ b, lookupC full n = some b ∧ synced c b = true) →
      syncedKids dirNames full kids = true
  | [] => fun _ => rfl
  | (n, c) :: rest => fun H => by
    simp only [syncedKids, Bool.and_eq_true]
    refine ⟨?_, syncedKids_of_spec dirNames full rest
      (fun m cm hm hc => H m cm (List.mem_cons_of_mem _ hm) hc)⟩
    by_cases hn : dirNames.contains n
    · obtain ⟨b, hb, hs⟩ := H n c (List.mem_cons_self ..) hn
      simp only [hn, if_true, hb]
      exact hs
    · rw [Bool.not_eq_true] at hn
      simp only [hn, Bool.false_eq_true, if_false]

theorem noIgnored_lookup_none (ch : List (String × Node)) (m : String)
    (hni : noIgnoredKids ch = true) (hig : IGNORES.contains m = true) :
    lookupC ch m = none := by
  rcases hl : lookupC ch m with _ | c
  · rfl
  · obtain ⟨h1, -⟩ := noIgnoredKids_spec ch hni m c (mem_of_lookupC ch m c hl)
    rw [hig] at h1
    cases h1

/-- The one-level assembly: from the per-name description of the replica
children after a failure-free `_folder_sync` level, conclude that the level
is synced with the source, and — absent ignored names and type clashes —
that its path set equals the source's. -/
theorem level_assembly (sc rc rcf : List (String × Node))
    (hnds : nodupB (keysC sc) = true)
    (hndr : nodupB (keysC rcf) = true)
    (hwfs : childrenWf sc = true)
    (F1 : ∀ m c, lookupC sc m = some c → IGNORES.contains m = false →
      lookupC rc m = none → lookupC rcf m = some c)
    (F2 : ∀ m x y, lookupC sc m = some (Node.file x) →
      lookupC rc m = some (Node.file y) → IGNORES.contains m = false →
      lookupC rcf m = some (Node.file x))
    (F3 : ∀ m dchs dchr, lookupC sc m = some (Node.dir dchs) →
      lookupC rc m = some (Node.dir dchr) → IGNORES.contains m = false →
      ∃ rcn, lookupC rcf m = some (Node.dir rcn) ∧ nodupB (keysC rcn) = true ∧
        synced (Node.dir dchs) (Node.dir rcn) = true ∧
        (noIgnoredB (Node.dir dchs) = true → noIgnoredB (Node.dir dchr) = true →
          noClashB (Node.dir dchs) (Node.dir dchr) = true →
          ∀ pv : FPath × Option Nat,
            pv ∈ Node.paths (Node.dir rcn) ↔ pv ∈ Node.paths (Node.dir dchs)))
    (F4 : ∀ m c b, lookupC sc m = some c → lookupC rc m = some b →
      IGNORES.contains m = false →
      ((∃ x dch, c = Node.file x ∧ b = Node.dir dch) ∨
        (∃ dch x, c = Node.dir dch ∧ b = Node.file x)) →
      lookupC rcf m = some b)
    (F5 : ∀ m, IGNORES.contains m = false → lookupC sc m = none →
      lookupC rcf m = none)
    (F6 : ∀ m, IGNORES.contains m = true → lookupC rcf m = lookupC rc m) :
    synced (Node.dir sc) (Node.dir rcf) = true ∧
      (noIgnoredB (Node.dir sc) = true → noIgnoredB (Node.dir rc) = true →
        noClashB (Node.dir sc) (Node.dir rc) = true →
        ∀ pv : FPath × Option Nat,
          pv ∈ Node.paths (Node.dir rcf) ↔ pv ∈ Node.paths (Node.dir sc)) := by
  have hpres : ∀ m c, lookupC sc m = some c → IGNORES.contains m = false →
      lookupC rcf m ≠ none := by
    intro m c hsc hig
    rcases hrc : lookupC rc m with _ | b
    · rw [F1 m c hsc hig hrc]
      simp
    · rcases c with x | dchs <;> rcases b with y | dchr
      · rw [F2 m x y hsc hrc hig]
        simp
      · rw [F4 m _ _ hsc hrc hig (Or.inl ⟨x, dchr, rfl, rfl⟩)]
        simp
      · rw [F4 m _ _ hsc hrc hig (Or.inr ⟨dchs, y, rfl, rfl⟩)]
        simp
      · obtain ⟨rcn, hl, -, -, -⟩ := F3 m dchs dchr hsc hrc hig
        rw [hl]
        simp
  constructor
  · simp only [synced, Bool.and_eq_true]
    refine ⟨⟨⟨?_, ?_⟩, ?_⟩, ?_⟩
    · -- left_only of (sc, rcf) is empty
      rw [List.isEmpty_iff]
      simp only [dircmp]
      rw [List.filter_eq_nil_iff]
      intro m hm
      obtain ⟨hk, hig⟩ := (mem_ln_iff sc m).1 hm
      obtain ⟨c, hc⟩ := exists_lookupC_of_mem_keys sc m hk
      intro hcontra
      rw [Bool.not_eq_true'] at hcontra
      rw [Bool.eq_false_iff] at hcontra
      apply hcontra
      apply (contains_iff _ m).2
      apply (mem_ln_iff rcf m).2
      refine ⟨?_, hig⟩
      by_contra hnotin
      exact hpres m c hc hig ((lookupC_eq_none_iff rcf m).2 hnotin)
    · -- right_only of (sc, rcf) is empty
      rw [List.isEmpty_iff]
      simp only [dircmp]
      rw [List.filter_eq_nil_iff]
      intro m hm
      obtain ⟨hk, hig⟩ := (mem_ln_iff rcf m).1 hm
      intro hcontra
      rw [Bool.not_eq_true'] at hcontra
      rw [Bool.eq_false_iff] at hcontra
      apply hcontra
      apply (contains_iff _ m).2
      apply (mem_ln_iff sc m).2
      refine ⟨?_, hig⟩
      by_contra hnotin
      have hscnone : lookupC sc m = none := (lookupC_eq_none_iff sc m).2 hnotin
      have : lookupC rcf m = none := F5 m hig hscnone
      rw [lookupC_eq_none_iff] at this
      exact this hk
    · -- diff_files of (sc, rcf) is empty
      rw [List.isEmpty_iff]
      simp only [dircmp]
      rw [List.filter_eq_nil_iff]
      intro m hm
      have hmc := List.mem_filter.1 hm
      have hff := hmc.2
      rw [Bool.and_eq_true] at hff
      have hcommon := hmc.1
      have hig : IGNORES.contains m = false :=
        ((mem_ln_iff sc m).1 (List.mem_filter.1 hcommon).1).2
      obtain ⟨x, hx⟩ : ∃ x, lookupC sc m = some (Node.file x) := by
        have h1 := hff.1
        rcases hl : lookupC sc m with _ | ⟨x | d⟩ <;> rw [hl] at h1 <;>
          simp [isFileN] at h1 ⊢
      have heq : lookupC rcf m = some (Node.file x) := by
        rcases hrc : lookupC rc m with _ | ⟨y | dchr⟩
        · exact F1 m _ hx hig hrc
        · exact F2 m x y hx hrc hig
        · have h2 := hff.2
          rw [F4 m _ _ hx hrc hig (Or.inl ⟨x, dchr, rfl, rfl⟩)] at h2
          simp [isFileN] at h2
      intro hcontra
      rw [hx, heq] at hcontra
      simp at hcontra
    · -- every common subdirectory of (sc, rcf) is synced
      apply syncedKids_of_spec
      intro m c hmem hcont
      have hcd := (contains_iff _ m).1 hcont
      obtain ⟨hsdir, hrdir, hcomm⟩ := mem_common_dirs sc rcf m hcd
      have hsc : lookupC sc m = some c := lookupC_of_mem sc m c hnds hmem
      obtain ⟨dchs, hdchs⟩ := (isDirN_some_iff _).1 hsdir
      rw [hsc] at hdchs
      injection hdchs with hdchs'
      subst hdchs'
      rcases hrc : lookupC rc m with _ | ⟨y | dchr⟩
      · have hig : IGNORES.contains m = false :=
          ((mem_common_iff sc rcf m).1 hcomm).2.2
        refine ⟨Node.dir dchs, F1 m _ hsc hig hrc, ?_⟩
        exact synced_refl_dir (Node.dir dchs)
          (childrenWf_mem sc m _ hwfs hmem) (by simp [isDirN])
      · have hig : IGNORES.contains m = false :=
          ((mem_common_iff sc rcf m).1 hcomm).2.2
        have h4 := F4 m _ _ hsc hrc hig (Or.inr ⟨dchs, y, rfl, rfl⟩)
        rw [h4] at hrdir
        simp [isDirN] at hrdir
      · have hig : IGNORES.contains m = false :=
          ((mem_common_iff sc rcf m).1 hcomm).2.2
        obtain ⟨rcn, hl, -, hsync, -⟩ := F3 m dchs dchr hsc hrc hig
        exact ⟨Node.dir rcn, hl, hsync⟩
  · -- path-set equality under the no-ignored / no-clash hypotheses
    intro hnis hnir hncl
    have hnis' : noIgnoredKids sc = true := hnis
    have hnir' : noIgnoredKids rc = true := hnir
    have hncl' : noClashKids rc sc = true := hncl
    apply paths_iff_of_lookup sc rcf hnds hndr
    intro m
    rcases hig : IGNORES.contains m with _ | _
    · rcases hsc : lookupC sc m with _ | c
      · exact Or.inl ⟨F5 m hig hsc, rfl⟩
      · rcases hrc : lookupC rc m with _ | b
        · exact Or.inr ⟨c, c, F1 m c hsc hig hrc, rfl, fun _ => Iff.rfl⟩
        · rcases noClashKids_spec rc sc hncl' m c (mem_of_lookupC sc m c hsc) b hrc with
            ⟨x, y, rfl, rfl⟩ | ⟨dchs, dchr, rfl, rfl, -⟩
          · exact Or.inr ⟨Node.file x, Node.file x, F2 m x y hsc hrc hig, rfl,
              fun _ => Iff.rfl⟩
          · obtain ⟨rcn, hl, -, -, hpaths⟩ := F3 m dchs dchr hsc hrc hig
            have hnic : noIgnoredB (Node.dir dchs) = true :=
              (noIgnoredKids_spec sc hnis' m _ (mem_of_lookupC sc m _ hsc)).2
            have hnib : noIgnoredB (Node.dir dchr) = true :=
              (noIgnoredKids_spec rc hnir' m _ (mem_of_lookupC rc m _ hrc)).2
            have hnc2 : noClashB (Node.dir dchs) (Node.dir dchr) = true := by
              rcases noClashKids_spec rc sc hncl' m _ (mem_of_lookupC sc m _ hsc)
                  _ hrc with ⟨x, y, hx, -⟩ | ⟨a, d, ha, hd, hcl⟩
              · cases hx
              · exact hcl
            exact Or.inr ⟨Node.dir rcn, Node.dir dchs, hl, rfl,
              hpaths hnic hnib hnc2⟩
    · have hscnone : lookupC sc m = none := noIgnored_lookup_none sc m hnis' hig
      have hrcnone : lookupC rc m = none := noIgnored_lookup_none rc m hnir' hig
      refine Or.inl ⟨?_, hscnone⟩
      rw [F6 m hig, hrcnone]

/-- Plumbing for one `_folder_sync` level: from failure-freeness of the
reconcile and purge phases and the recursion facts about the common
subdirectories, derive the per-name description of the final replica children
and assemble it with `level_assembly`. -/
theorem level_F_assembly (env : Env) (sp rp : FPath) (sc rc : List (String × Node))
    (hnds : nodupB (keysC sc) = true) (hndr : nodupB (keysC rc) = true)
    (hcwfs : childrenWf sc = true)
    (hffr : failFree (copy_new_modified_files env sp rp sc rc
      ((dircmp sc rc).left_only ++ (dircmp sc rc).diff_files)).trace = true)
    (hffd : failFree (delete_locations env rp
      (copy_new_modified_files env sp rp sc rc
        ((dircmp sc rc).left_only ++ (dircmp sc rc).diff_files)).repl
      (dircmp sc rc).right_only).trace = true)
    (rcf : List (String × Node))
    (hndf : nodupB (keysC rcf) = true)
    (Hproc : ∀ n child, (n, child) ∈ sc →
      (dircmp sc rc).common_dirs.contains n = true →
      ∃ rcn, lookupC rcf n = some (Node.dir rcn) ∧ nodupB (keysC rcn) = true ∧
        synced child (Node.dir rcn) = true ∧
        (noIgnoredB child = true →
          (∀ b, lookupC (delete_locations env rp
            (copy_new_modified_files env sp rp sc rc
              ((dircmp sc rc).left_only ++ (dircmp sc rc).diff_files)).repl
            (dircmp sc rc).right_only).repl n = some b →
            noIgnoredB b = true ∧ noClashB child b = true) →
          ∀ pv : FPath × Option Nat,
            pv ∈ Node.paths (Node.dir rcn) ↔ pv ∈ Node.paths child))
    (Hun : ∀ m, m ∉ keysC sc ∨ (dircmp sc rc).common_dirs.contains m = false →
      lookupC rcf m = lookupC (delete_locations env rp
        (copy_new_modified_files env sp rp sc rc
          ((dircmp sc rc).left_only ++ (dircmp sc rc).diff_files)).repl
        (dircmp sc rc).right_only).repl m) :
    synced (Node.dir sc) (Node.dir rcf) = true ∧
      (noIgnoredB (Node.dir sc) = true → noIgnoredB (Node.dir rc) = true →
        noClashB (Node.dir sc) (Node.dir rc) = true →
        ∀ pv : FPath × Option Nat,
          pv ∈ Node.paths (Node.dir rcf) ↔ pv ∈ Node.paths (Node.dir sc)) := by
  have hstab : ∀ m : String, m ∉ (dircmp sc rc).right_only →
      m ∉ (dircmp sc rc).left_only → m ∉ (dircmp sc rc).diff_files →
      lookupC (delete_locations env rp
        (copy_new_modified_files env sp rp sc rc
          ((dircmp sc rc).left_only ++ (dircmp sc rc).diff_files)).repl
        (dircmp sc rc).right_only).repl m = lookupC rc m := by
    intro m hr hl hd
    rw [delete_lookup_not_mem env rp _ _ m hr,
      copy_lookup_not_mem env sp rp sc _ rc m (by
        intro hmem'
        rcases List.mem_append.1 hmem' with h | h
        exacts [hl h, hd h])]
  apply level_assembly sc rc rcf hnds hndf hcwfs
  · -- F1: names only in the source are copied verbatim
    intro m c hsc hig hrcn
    have hks : m ∈ keysC sc := by
      by_contra h
      rw [(lookupC_eq_none_iff sc m).2 h] at hsc
      cases hsc
    have hknr : m ∉ keysC rc := (lookupC_eq_none_iff rc m).1 hrcn
    have hleft : m ∈ (dircmp sc rc).left_only :=
      (mem_left_only_iff sc rc m).2 ⟨hks, hig, hknr⟩
    obtain ⟨s0, hs0, hval⟩ := copy_char env sp rp sc
      ((dircmp sc rc).left_only ++ (dircmp sc rc).diff_files) rc m
      (nodup_L sc rc hnds) hffr (List.mem_append.2 (Or.inl hleft))
    rw [hsc] at hs0
    injection hs0 with hs0'
    subst hs0'
    have hncd : (dircmp sc rc).common_dirs.contains m = false := by
      rw [Bool.eq_false_iff]
      intro hc
      exact hknr ((mem_common_iff sc rc m).1
        ((mem_common_dirs_iff sc rc m).1 ((contains_iff _ m).1 hc)).1).2.1
    have hnr : m ∉ (dircmp sc rc).right_only := fun hr =>
      ((mem_right_only_iff sc rc m).1 hr).2.2 hks
    rw [Hun m (Or.inr hncd), delete_lookup_not_mem env rp _ _ m hnr, hval]
    rcases c with x | dch
    · rfl
    · rw [hrcn]
      show some (copytreeNode (Node.dir dch) none) = some (Node.dir dch)
      rw [copytreeNode_fresh (Node.dir dch)
        (childrenWf_mem sc m _ hcwfs (mem_of_lookupC sc m _ hsc))]
  · -- F2: a file on both sides ends as the source's file
    intro m x y hsc hrc hig
    have hks : m ∈ keysC sc := by
      by_contra h
      rw [(lookupC_eq_none_iff sc m).2 h] at hsc
      cases hsc
    have hkr : m ∈ keysC rc := by
      by_contra h
      rw [(lookupC_eq_none_iff rc m).2 h] at hrc
      cases hrc
    have hcommon : m ∈ (dircmp sc rc).common :=
      (mem_common_iff sc rc m).2 ⟨hks, hkr, hig⟩
    have hncd : (dircmp sc rc).common_dirs.contains m = false := by
      rw [Bool.eq_false_iff]
      intro hc
      have hd := (mem_common_dirs sc rc m ((contains_iff _ m).1 hc)).1
      rw [hsc] at hd
      simp [isDirN] at hd
    have hnr : m ∉ (dircmp sc rc).right_only := fun hr =>
      ((mem_right_only_iff sc rc m).1 hr).2.2 hks
    by_cases hdiff : lookupC sc m = lookupC rc m
    · have hnl : m ∉ (dircmp sc rc).left_only := fun hl =>
        ((mem_left_only_iff sc rc m).1 hl).2.2 hkr
      have hnd : m ∉ (dircmp sc rc).diff_files := fun hd =>
        ((mem_diff_files_iff sc rc m).1 hd).2 hdiff
      rw [Hun m (Or.inr hncd), hstab m hnr hnl hnd, ← hdiff]
      exact hsc
    · have hcf : m ∈ (dircmp sc rc).common_files :=
        (mem_common_files_iff sc rc m).2 ⟨hcommon,
          by rw [hsc]; simp [isFileN], by rw [hrc]; simp [isFileN]⟩
      have hdf : m ∈ (dircmp sc rc).diff_files :=
        (mem_diff_files_iff sc rc m).2 ⟨hcf, hdiff⟩
      obtain ⟨s0, hs0, hval⟩ := copy_char env sp rp sc
        ((dircmp sc rc).left_only ++ (dircmp sc rc).diff_files) rc m
        (nodup_L sc rc hnds) hffr (List.mem_append.2 (Or.inr hdf))
      rw [hsc] at hs0
      injection hs0 with hs0'
      subst hs0'
      rw [Hun m (Or.inr hncd), delete_lookup_not_mem env rp _ _ m hnr, hval]
  · -- F3: a directory on both sides is the recursive result
    intro m dchs dchr hsc hrc hig
    have hks : m ∈ keysC sc := by
      by_contra h
      rw [(lookupC_eq_none_iff sc m).2 h] at hsc
      cases hsc
    have hkr : m ∈ keysC rc := by
      by_contra h
      rw [(lookupC_eq_none_iff rc m).2 h] at hrc
      cases hrc
    have hcd : m ∈ (dircmp sc rc).common_dirs :=
      (mem_common_dirs_iff sc rc m).2
        ⟨(mem_common_iff sc rc m).2 ⟨hks, hkr, hig⟩,
          by rw [hsc]; simp [isDirN], by rw [hrc]; simp [isDirN]⟩
    obtain ⟨rcn, hl, hnd, hsync, himpl⟩ := Hproc m (Node.dir dchs)
      (mem_of_lookupC sc m _ hsc) ((contains_iff _ m).2 hcd)
    refine ⟨rcn, hl, hnd, hsync, fun hni1 hni2 hnc => himpl hni1 ?_⟩
    intro b hb
    rw [hstab m (mem_common_dirs_not_right sc rc m hcd)
      (mem_common_dirs_not_left sc rc m hcd)
      (mem_common_dirs_not_diff sc rc m hcd), hrc] at hb
    injection hb with hb'
    subst hb'
    exact ⟨hni2, hnc⟩
  · -- F4: a type clash is skipped by dircmp and left untouched
    intro m c b hsc hrc hig hshape
    have hks : m ∈ keysC sc := by
      by_contra h
      rw [(lookupC_eq_none_iff sc m).2 h] at hsc
      cases hsc
    have hkr : m ∈ keysC rc := by
      by_contra h
      rw [(lookupC_eq_none_iff rc m).2 h] at hrc
      cases hrc
    have hncd : (dircmp sc rc).common_dirs.contains m = false := by
      rw [Bool.eq_false_iff]
      intro hc
      obtain ⟨hd1, hd2, -⟩ := mem_common_dirs sc rc m ((contains_iff _ m).1 hc)
      rcases hshape with ⟨x, dch, rfl, rfl⟩ | ⟨dch, x, rfl, rfl⟩
      · rw [hsc] at hd1
        simp [isDirN] at hd1
      · rw [hrc] at hd2
        simp [isDirN] at hd2
    have hnr : m ∉ (dircmp sc rc).right_only := fun hr =>
      ((mem_right_only_iff sc rc m).1 hr).2.2 hks
    have hnl : m ∉ (dircmp sc rc).left_only := fun hl =>
      ((mem_left_only_iff sc rc m).1 hl).2.2 hkr
    have hndi : m ∉ (dircmp sc rc).diff_files := by
      intro hd
      obtain ⟨hcf, -⟩ := (mem_diff_files_iff sc rc m).1 hd
      obtain ⟨-, hf1, hf2⟩ := (mem_common_files_iff sc rc m).1 hcf
      rcases hshape with ⟨x, dch, rfl, rfl⟩ | ⟨dch, x, rfl, rfl⟩
      · rw [hrc] at hf2
        simp [isFileN] at hf2
      · rw [hsc] at hf1
        simp [isFileN] at hf1
    rw [Hun m (Or.inr hncd), hstab m hnr hnl hndi]
    exact hrc
  · -- F5: a non-ignored name absent from the source ends absent
    intro m hig hscn
    have hkns : m ∉ keysC sc := (lookupC_eq_none_iff sc m).1 hscn
    rw [Hun m (Or.inl hkns)]
    by_cases hkr : m ∈ keysC rc
    · exact delete_char_mem env rp (dircmp sc rc).right_only _ m
        (copy_nodup env sp rp sc _ rc hndr) hffd
        ((mem_right_only_iff sc rc m).2 ⟨hkr, hig, hkns⟩)
    · have hnr : m ∉ (dircmp sc rc).right_only := fun hr =>
        hkr ((mem_right_only_iff sc rc m).1 hr).1
      have hnl : m ∉ (dircmp sc rc).left_only := fun hl =>
        hkns ((mem_left_only_iff sc rc m).1 hl).1
      have hndi : m ∉ (dircmp sc rc).diff_files := by
        intro hd
        exact hkns ((mem_common_iff sc rc m).1
          ((mem_common_files_iff sc rc m).1
            ((mem_diff_files_iff sc rc m).1 hd).1).1).1
      rw [hstab m hnr hnl hndi]
      exact (lookupC_eq_none_iff rc m).2 hkr
  · -- F6: ignored names are never touched
    intro m hig
    have hncd : (dircmp sc rc).common_dirs.contains m = false := by
      rw [Bool.eq_false_iff]
      intro hc
      have h := ((mem_common_iff sc rc m).1
        ((mem_common_dirs_iff sc rc m).1 ((contains_iff _ m).1 hc)).1).2.2
      rw [hig] at h
      cases h
    have hnr : m ∉ (dircmp sc rc).right_only := by
      intro hr
      have h := ((mem_right_only_iff sc rc m).1 hr).2.1
      rw [hig] at h
      cases h
    have hnl : m ∉ (dircmp sc rc).left_only := by
      intro hl
      have h := ((mem_left_only_iff sc rc m).1 hl).2.1
      rw [hig] at h
      cases h
    have hndi : m ∉ (dircmp sc rc).diff_files := by
      intro hd
      have h := ((mem_common_iff sc rc m).1
        ((mem_common_files_iff sc rc m).1
          ((mem_diff_files_iff sc rc m).1 hd).1).1).2.2
      rw [hig] at h
      cases h
    rw [Hun m (Or.inr hncd), hstab m hnr hnl hndi]

mutual

/-- Master induction for `_folder_sync` on an existing directory pair: a
failure-free run returns a well-listed directory that is synced with the
source, and — when neither tree holds ignored names and no common name
clashes in type — the result's path set equals the source's. -/
theorem core_master (env : Env) (sp rp : FPath) :
    ∀ s r : Node, s.wfB = true → r.wfB = true →
      isDirN (some s) = true → isDirN (some r) = true →
      failFree (folder_syncCore env sp rp s r).trace = true →
      ∃ rcf, (folder_syncCore env sp rp s r).replica = some (Node.dir rcf) ∧
        nodupB (keysC rcf) = true ∧
        synced s (Node.dir rcf) = true ∧
        (noIgnoredB s = true → noIgnoredB r = true → noClashB s r = true →
          ∀ pv : FPath × Option Nat,
            pv ∈ Node.paths (Node.dir rcf) ↔ pv ∈ Node.paths s)
  | Node.dir sc, Node.dir rc => fun hwfs hwfr _ _ hff => by
    have hnds : nodupB (keysC sc) = true := ((wfB_dir sc).1 hwfs).1
    have hcwfs : childrenWf sc = true := ((wfB_dir sc).1 hwfs).2
    have hndr : nodupB (keysC rc) = true := ((wfB_dir rc).1 hwfr).1
    have hcwfr : childrenWf rc = true := ((wfB_dir rc).1 hwfr).2
    simp only [folder_syncCore] at hff ⊢
    rcases h1 : (copy_new_modified_files env sp rp sc rc
        ((dircmp sc rc).left_only ++ (dircmp sc rc).diff_files)).ok with _ | _
    · exfalso
      simp only [h1, Bool.false_eq_true, if_false] at hff
      have h2 := (copy_ok_iff_failFree env sp rp sc
        ((dircmp sc rc).left_only ++ (dircmp sc rc).diff_files) rc).2 hff
      rw [h1] at h2
      cases h2
    · simp only [h1, if_true] at hff ⊢
      rcases h2 : (delete_locations env rp
          (copy_new_modified_files env sp rp sc rc
            ((dircmp sc rc).left_only ++ (dircmp sc rc).diff_files)).repl
          (dircmp sc rc).right_only).ok with _ | _
      · exfalso
        simp only [h2, Bool.false_eq_true, if_false] at hff
        rw [failFree_append, Bool.and_eq_true] at hff
        have h3 := (delete_ok_iff_failFree env rp (dircmp sc rc).right_only
          (copy_new_modified_files env sp rp sc rc
            ((dircmp sc rc).left_only ++ (dircmp sc rc).diff_files)).repl).2 hff.2
        rw [h2] at h3
        cases h3
      · simp only [h2, if_true] at hff ⊢
        simp only [failFree_append, Bool.and_eq_true] at hff
        obtain ⟨⟨hffr, hffd⟩, hffk⟩ := hff
        have Hk : ∀ n child, (n, child) ∈ sc →
            (dircmp sc rc).common_dirs.contains n = true →
            (∃ a, child = Node.dir a) ∧
            (∃ b, lookupC (delete_locations env rp
              (copy_new_modified_files env sp rp sc rc
                ((dircmp sc rc).left_only ++ (dircmp sc rc).diff_files)).repl
              (dircmp sc rc).right_only).repl n = some (Node.dir b) ∧
              (Node.dir b).wfB = true) := by
          intro n child hmem hcont
          have hcd := (contains_iff _ n).1 hcont
          obtain ⟨hsdir, hrdir, -⟩ := mem_common_dirs sc rc n hcd
          have hsc : lookupC sc n = some child := lookupC_of_mem sc n child hnds hmem
          obtain ⟨a, ha⟩ := (isDirN_some_iff _).1 hsdir
          rw [hsc] at ha
          obtain rfl : child = Node.dir a := by injection ha
          refine ⟨⟨a, rfl⟩, ?_⟩
          obtain ⟨b, hb⟩ := (isDirN_some_iff _).1 hrdir
          refine ⟨b, ?_, childrenWf_mem rc n (Node.dir b) hcwfr (mem_of_lookupC rc n _ hb)⟩
          rw [delete_lookup_not_mem env rp _ _ n (mem_common_dirs_not_right sc rc n hcd),
            copy_lookup_not_mem env sp rp sc _ rc n (by
              intro hmem'
              rcases List.mem_append.1 hmem' with hl | hd
              · exact mem_common_dirs_not_left sc rc n hcd hl
              · exact mem_common_dirs_not_diff sc rc n hcd hd)]
          exact hb
        have hkm := kids_master env sp rp (dircmp sc rc).common_dirs sc
          (delete_locations env rp
            (copy_new_modified_files env sp rp sc rc
              ((dircmp sc rc).left_only ++ (dircmp sc rc).diff_files)).repl
            (dircmp sc rc).right_only).repl hcwfs hnds Hk hffk
        have hndf : nodupB (keysC (syncChildren env sp rp (dircmp sc rc).common_dirs sc
            (delete_locations env rp
              (copy_new_modified_files env sp rp sc rc
                ((dircmp sc rc).left_only ++ (dircmp sc rc).diff_files)).repl
              (dircmp sc rc).right_only).repl).1) = true :=
          syncChildren_nodup env sp rp _ sc _
            (delete_nodup env rp _ _ (copy_nodup env sp rp sc _ rc hndr))
        obtain ⟨hsync, hpaths⟩ := level_F_assembly env sp rp sc rc hnds hndr hcwfs
          hffr hffd _ hndf hkm.1 hkm.2
        exact ⟨_, rfl, hndf, hsync, hpaths⟩
  | Node.dir _, Node.file _ => fun _ _ _ h _ => by simp [isDirN] at h
  | Node.file _, Node.dir _ => fun _ _ h _ _ => by simp [isDirN] at h
  | Node.file _, Node.file _ => fun _ _ h _ _ => by simp [isDirN] at h

/-- Master induction for the recursion loop: after a failure-free pass every
common subdirectory holds the recursive result — synced with its source
child — and every name the loop does not process keeps its lookup in the
incoming replica listing. -/
theorem kids_master (env : Env) (sp rp : FPath) (dirNames : List String) :
    ∀ (kids rc : List (String × Node)),
      childrenWf kids = true →
      nodupB (keysC kids) = true →
      (∀ n child, (n, child) ∈ kids → dirNames.contains n = true →
        (∃ a, child = Node.dir a) ∧
        (∃ b, lookupC rc n = some (Node.dir b) ∧ (Node.dir b).wfB = true)) →
      failFree (syncChildren env sp rp dirNames kids rc).2.1 = true →
      (∀ n child, (n, child) ∈ kids → dirNames.contains n = true →
        ∃ rcn, lookupC (syncChildren env sp rp dirNames kids rc).1 n =
            some (Node.dir rcn) ∧
          nodupB (keysC rcn) = true ∧
          synced child (Node.dir rcn) = true ∧
          (noIgnoredB child = true →
            (∀ b, lookupC rc n = some b →
              noIgnoredB b = true ∧ noClashB child b = true) →
            ∀ pv : FPath × Option Nat,
              pv ∈ Node.paths (Node.dir rcn) ↔ pv ∈ Node.paths child)) ∧
      (∀ m, m ∉ keysC kids ∨ dirNames.contains m = false →
        lookupC (syncChildren env sp rp dirNames kids rc).1 m = lookupC rc m)
  | [], rc => fun _ _ _ _ =>
    ⟨fun n c hm _ => absurd hm (by simp), fun m _ => rfl⟩
  | (n, child) :: rest, rc => fun hwf hnd H hff => by
    have hwfc : child.wfB = true := by
      simp only [childrenWf, Bool.and_eq_true] at hwf
      exact hwf.1
    have hwfrest : childrenWf rest = true := by
      simp only [childrenWf, Bool.and_eq_true] at hwf
      exact hwf.2
    have hndrest : nodupB (keysC rest) = true :=
      nodupB_cons_tail _ _ (by simpa [keysC] using hnd)
    have hn_not_rest : n ∉ keysC rest := by
      have hcontains := nodupB_cons_head n (keysC rest) (by simpa [keysC] using hnd)
      intro hmem
      rw [(contains_iff _ n).2 hmem] at hcontains
      cases hcontains
    by_cases hn : dirNames.contains n
    · obtain ⟨⟨a, hca⟩, ⟨b, hb, hwfb⟩⟩ := H n child (List.mem_cons_self ..) hn
      subst hca
      have hdone := core_done env (sp ++ [n]) (rp ++ [n]) (Node.dir a) (Node.dir b)
        hwfc (by simp [isDirN]) (by simp [isDirN])
      simp only [syncChildren, hn, if_true, hb, hdone] at hff ⊢
      rw [failFree_append, Bool.and_eq_true] at hff
      obtain ⟨hffc, hffrest⟩ := hff
      obtain ⟨rcn0, hrepl, hndn0, hsync0, hpaths0⟩ :=
        core_master env (sp ++ [n]) (rp ++ [n]) (Node.dir a) (Node.dir b)
          hwfc hwfb (by simp [isDirN]) (by simp [isDirN]) hffc
      simp only [hrepl] at hffrest ⊢
      have Hrest : ∀ m c, (m, c) ∈ rest → dirNames.contains m = true →
          (∃ a2, c = Node.dir a2) ∧
          (∃ b2, lookupC (setC rc n (Node.dir rcn0)) m = some (Node.dir b2) ∧
            (Node.dir b2).wfB = true) := by
        intro m c hmem hcont
        have hm_ne : m ≠ n := by
          intro e
          subst e
          exact hn_not_rest (by
            simp only [keysC]
            exact List.mem_map_of_mem Prod.fst hmem)
        obtain ⟨hdirc, ⟨b2, hb2, hwfb2⟩⟩ := H m c (List.mem_cons_of_mem _ hmem) hcont
        refine ⟨hdirc, ⟨b2, ?_, hwfb2⟩⟩
        rw [lookupC_setC_ne rc n m _ hm_ne]
        exact hb2
      have hrest := kids_master env sp rp dirNames rest (setC rc n (Node.dir rcn0))
        hwfrest hndrest Hrest hffrest
      refine ⟨?_, ?_⟩
      · intro m c hmem hcont
        rcases List.mem_cons.1 hmem with he | hmem'
        · injection he with he1 he2
          subst he1
          subst he2
          refine ⟨rcn0, ?_, hndn0, hsync0, ?_⟩
          · rw [hrest.2 _ (Or.inl hn_not_rest), lookupC_setC_self]
          · intro hni hcl
            exact hpaths0 hni (hcl (Node.dir b) hb).1 (hcl (Node.dir b) hb).2
        · have hm_ne : m ≠ n := by
            intro e
            subst e
            exact hn_not_rest (by
              simp only [keysC]
              exact List.mem_map_of_mem Prod.fst hmem')
          obtain ⟨rcn, hl, hnd2, hs2, hp2⟩ := hrest.1 m c hmem' hcont
          refine ⟨rcn, hl, hnd2, hs2, fun hni hcl => hp2 hni ?_⟩
          intro b2 hb2
          rw [lookupC_setC_ne rc n m _ hm_ne] at hb2
          exact hcl b2 hb2
      · intro m hm
        have hm_rest : m ∉ keysC rest ∨ dirNames.contains m = false := by
          rcases hm with h | h
          · refine Or.inl (fun hk => h ?_)
            simp only [keysC] at hk ⊢
            exact List.mem_cons_of_mem _ hk
          · exact Or.inr h
        have hm_ne : m ≠ n := by
          rcases hm with h | h
          · intro e
            subst e
            exact h (by simp [keysC])
          · intro e
            subst e
            rw [hn] at h
            cases h
        rw [hrest.2 m hm_rest]
        exact lookupC_setC_ne rc n m _ hm_ne
    · rw [Bool.not_eq_true] at hn
      simp only [syncChildren, hn, Bool.false_eq_true, if_false] at hff ⊢
      have hrest := kids_master env sp rp dirNames rest rc hwfrest hndrest
        (fun m c hmem hcont => H m c (List.mem_cons_of_mem _ hmem) hcont) hff
      refine ⟨?_, ?_⟩
      · intro m c hmem hcont
        rcases List.mem_cons.1 hmem with he | hmem'
        · injection he with he1 he2
          subst he1
          rw [hn] at hcont
          cases hcont
        · exact hrest.1 m c hmem' hcont
      · intro m hm
        apply hrest.2 m
        rcases hm with h | h
        · refine Or.inl (fun hk => h ?_)
          simp only [keysC] at hk ⊢
          exact List.mem_cons_of_mem _ hk
        · exact Or.inr h

end

/-! ### C1: convergence, and C2: idempotence -/

/-- C1, counterexample: the sync orchestrator inherits `filecmp.dircmp`'s
default ignore list, so a source entry named `.git` is invisible to the
comparison.  The run on source `{".git": file}` against an empty replica
completes with no per-entry failure, yet the replica stays empty — its file
set does not equal the source's, and `.git` is not a type-mismatched entry
(it is absent from the replica altogether). -/
theorem convergence_fails_on_ignored_names :
    failFree (folder_sync ⟨fun _ => false, fun _ => false⟩ [] ["r"]
      (some (Node.dir [(".git", Node.file 0)])) (some (Node.dir []))).trace = true ∧
    (folder_sync ⟨fun _ => false, fun _ => false⟩ [] ["r"]
      (some (Node.dir [(".git", Node.file 0)])) (some (Node.dir []))).outcome =
      Outcome.done ∧
    (folder_sync ⟨fun _ => false, fun _ => false⟩ [] ["r"]
      (some (Node.dir [(".git", Node.file 0)])) (some (Node.dir []))).replica =
      some (Node.dir []) ∧
    (([".git"], some 0) : FPath × Option Nat) ∈
      Node.paths (Node.dir [(".git", Node.file 0)]) ∧
    (([".git"], some 0) : FPath × Option Nat) ∉ Node.paths (Node.dir []) := by
  decide

/-- C1 (amended): convergence holds once the trees are free of
`filecmp`-default ignored names: for every well-listed source and replica
directory with no ignored names on either side and no file/directory type
clash on any common name, a run of the sync orchestrator that completes with
no per-entry failure leaves the replica with exactly the source's path set —
the same directory structure and the same files with the same content
signatures. -/
theorem convergence_amended (env : Env) (sp rp : FPath) (s r : Node)
    (hwfs : s.wfB = true) (hwfr : r.wfB = true)
    (hds : isDirN (some s) = true) (hdr : isDirN (some r) = true)
    (hnis : noIgnoredB s = true) (hnir : noIgnoredB r = true)
    (hncl : noClashB s r = true)
    (hff : failFree (folder_sync env sp rp (some s) (some r)).trace = true) :
    ∃ rcf, (folder_sync env sp rp (some s) (some r)).replica = some (Node.dir rcf) ∧
      ∀ pv : FPath × Option Nat,
        pv ∈ Node.paths (Node.dir rcf) ↔ pv ∈ Node.paths s := by
  obtain ⟨rcf, h1, -, -, h4⟩ := core_master env sp rp s r hwfs hwfr hds hdr hff
  exact ⟨rcf, h1, h4 hnis hnir hncl⟩

theorem convergence_amended_witness :
    (Node.dir [("a", Node.file 1)]).wfB = true ∧
    (Node.dir [("b", Node.file 2)]).wfB = true ∧
    isDirN (some (Node.dir [("a", Node.file 1)])) = true ∧
    isDirN (some (Node.dir [("b", Node.file 2)])) = true ∧
    noIgnoredB (Node.dir [("a", Node.file 1)]) = true ∧
    noIgnoredB (Node.dir [("b", Node.file 2)]) = true ∧
    noClashB (Node.dir [("a", Node.file 1)]) (Node.dir [("b", Node.file 2)]) = true ∧
    failFree (folder_sync ⟨fun _ => false, fun _ => false⟩ [] ["r"]
      (some (Node.dir [("a", Node.file 1)]))
      (some (Node.dir [("b", Node.file 2)]))).trace = true ∧
    (∃ rcf, (folder_sync ⟨fun _ => false, fun _ => false⟩ [] ["r"]
        (some (Node.dir [("a", Node.file 1)]))
        (some (Node.dir [("b", Node.file 2)]))).replica = some (Node.dir rcf) ∧
      ∀ pv : FPath × Option Nat,
        pv ∈ Node.paths (Node.dir rcf) ↔
          pv ∈ Node.paths (Node.dir [("a", Node.file 1)])) :=
  ⟨by decide, by decide, by decide, by decide, by decide, by decide, by decide,
    by decide,
    convergence_amended ⟨fun _ => false, fun _ => false⟩ [] ["r"]
      (Node.dir [("a", Node.file 1)]) (Node.dir [("b", Node.file 2)])
      (by decide) (by decide) (by decide) (by decide) (by decide) (by decide)
      (by decide) (by decide)⟩

/-- C2: idempotence.  If one run of the sync orchestrator on an existing
well-listed source directory (against any well-listed replica state,
including a missing replica) completes with no per-entry failure and without
raising, then a second run on the unchanged source — under any failure
environment and any paths — returns the first run's replica unchanged with
an empty trace: regardless of byte-for-byte identity it emits no reconcile
(copy) or purge (delete) entries, neither to the console nor to the log. -/
theorem idempotent_second_run (env env2 : Env) (sp rp sp2 rp2 : FPath)
    (s : Node) (ro : Option Node)
    (hwfs : s.wfB = true) (hdirs : isDirN (some s) = true) (hwfr : wfO ro = true)
    (hff : failFree (folder_sync env sp rp (some s) ro).trace = true)
    (hdone : (folder_sync env sp rp (some s) ro).outcome = Outcome.done) :
    folder_sync env2 sp2 rp2 (some s) (folder_sync env sp rp (some s) ro).replica =
      ⟨(folder_sync env sp rp (some s) ro).replica, [], Outcome.done⟩ := by
  rcases s with x | sc
  · simp [isDirN] at hdirs
  · rcases ro with _ | r
    · rcases hcf : env.copyFail rp with _ | _
      · simp only [folder_sync, replicaAbsent, hcf, Bool.false_eq_true,
          if_false] at hdone ⊢
        show folder_syncCore env2 sp2 rp2 (Node.dir sc) (Node.dir sc) = _
        exact synced_noop_core env2 sp2 rp2 (Node.dir sc) (Node.dir sc)
          (synced_refl_dir (Node.dir sc) hwfs (by simp [isDirN]))
      · exfalso
        simp only [folder_sync, replicaAbsent, hcf, if_true] at hdone
        cases hdone
    · rcases r with y | rc2
      · exfalso
        simp only [folder_sync, folder_syncCore] at hdone
        cases hdone
      · simp only [wfO] at hwfr
        simp only [folder_sync] at hff ⊢
        obtain ⟨rcf, hrepl, -, hsync, -⟩ := core_master env sp rp
          (Node.dir sc) (Node.dir rc2) hwfs hwfr hdirs (by simp [isDirN]) hff
        rw [hrepl]
        show folder_syncCore env2 sp2 rp2 (Node.dir sc) (Node.dir rcf) = _
        exact synced_noop_core env2 sp2 rp2 (Node.dir sc) (Node.dir rcf) hsync

theorem idempotent_second_run_witness :
    (Node.dir [("a", Node.file 1)]).wfB = true ∧
    isDirN (some (Node.dir [("a", Node.file 1)])) = true ∧
    wfO (some (Node.dir [])) = true ∧
    failFree (folder_sync ⟨fun _ => false, fun _ => false⟩ [] ["r"]
      (some (Node.dir [("a", Node.file 1)])) (some (Node.dir []))).trace = true ∧
    (folder_sync ⟨fun _ => false, fun _ => false⟩ [] ["r"]
      (some (Node.dir [("a", Node.file 1)])) (some (Node.dir []))).outcome =
      Outcome.done ∧
    folder_sync ⟨fun _ => false, fun _ => false⟩ [] ["r2"]
        (some (Node.dir [("a", Node.file 1)]))
        (folder_sync ⟨fun _ => false, fun _ => false⟩ [] ["r"]
          (some (Node.dir [("a", Node.file 1)])) (some (Node.dir []))).replica =
      ⟨(folder_sync ⟨fun _ => false, fun _ => false⟩ [] ["r"]
          (some (Node.dir [("a", Node.file 1)])) (some (Node.dir []))).replica,
        [], Outcome.done⟩ :=
  ⟨by decide, by decide, by decide, by decide, by decide,
    idempotent_second_run ⟨fun _ => false, fun _ => false⟩
      ⟨fun _ => false, fun _ => false⟩ [] ["r"] [] ["r2"]
      (Node.dir [("a", Node.file 1)]) (some (Node.dir []))
      (by decide) (by decide) (by decide) (by decide) (by decide)⟩

/-! ### C5: fatal missing source -/

/-- C5: when the source path does not exist, `_folder_sync` first appends the
condition to the log (and emits nothing else — in particular no filesystem
write), then raises `FileNotFoundError`, and returns the replica tree
unchanged. -/
theorem missing_source_logged_raised_replica_unchanged
    (env : Env) (sp rp : FPath) (repl : Option Node) :
    folder_sync env sp rp none repl =
      ⟨repl, [Ev.log (Msg.srcMissingExc sp)], Outcome.srcNotFound⟩ := rfl

/-! ### C9: scheduler entry-point mode dispatch -/

/-- C9 (code bug): with a valid mode — here exactly the modes `"add"` and
`"del"` — `main.py` performs the corresponding crontab operation but then
still executes the unconditional `raise ValueError` of lines 51-54, because
the add/del branches neither return nor exit; the "invalid mode" error is
raised on every path, contradicting its own message text. -/
theorem main_dispatch_raises_even_for_valid_modes
    (cmd : String) (i : Nat) (cron : List CronJob) :
    main_mode_dispatch "add" cmd i cron =
      ⟨(add_job_to_crontab cmd i cron).1, some (add_job_to_crontab cmd i cron).2, true⟩ ∧
    main_mode_dispatch "del" cmd i cron =
      ⟨(del_job_from_crontab cmd cron).1, some (del_job_from_crontab cmd cron).2, true⟩ ∧
    (main_mode_dispatch "add" cmd i cron).raisedValueError = true ∧
    (main_mode_dispatch "del" cmd i cron).raisedValueError = true := by
  refine ⟨?_, ?_, ?_, ?_⟩ <;> rfl

end FolderSync
